import Mathlib

/-!
Verification development for the meta-aggregator source (`src/app.py`).

Conventions of the shallow embedding:
* Page text (the output of the external HTML-to-text collaborator) is a
  `List Char`.
* Python `float` arithmetic on the small decimal percentages and scores is
  modelled exactly over `ℚ`.
* Python `dict` / `defaultdict` values keyed by deck name are modelled as a
  total function `String → α` (absent key = default value) together with the
  insertion-ordered key list, mirroring Python's insertion-ordered dicts.
* The regexes of `app.py` are embedded as executable character-level matchers
  that reproduce the backtracking behaviour of the concrete patterns
  (greedy `\d+`/`\s+` runs, the lazy deck-name group, `re.finditer`'s
  left-to-right non-overlapping scan).
-/

namespace MetaAgg

/-- ASCII whitespace, as matched by `\s` in the source regexes. -/
def isWs (c : Char) : Bool :=
  c = ' ' || c = '\t' || c = '\n' || c = '\r' || c = '\x0b' || c = '\x0c'

/-- The `[A-Z0-9]` character class anchoring deck names in the source regexes. -/
def isUpperDigit (c : Char) : Bool :=
  ('A' ≤ c && c ≤ 'Z') || c.isDigit

/-- Value of a digit string, as produced by Python `int` on a `\d+` group. -/
def digitsToNat (cs : List Char) : Nat :=
  cs.foldl (fun a c => 10 * a + (c.toNat - '0'.toNat)) 0

/-- Python `str.strip()` on a character list. -/
def stripWs (cs : List Char) : List Char :=
  ((cs.dropWhile isWs).reverse.dropWhile isWs).reverse

/-- Integer-and-fraction value of a decimal digit string such as `14.52`,
`14.` or `14`; models Python `float` on the strings the regex groups
`\d+[.,]?\d*` can produce (after `,` → `.` normalisation). -/
def floatVal (cs : List Char) : ℚ :=
  let ip := cs.takeWhile Char.isDigit
  let rest := cs.dropWhile Char.isDigit
  match rest with
  | c :: fp =>
      if c = '.' then
        let fd := fp.takeWhile Char.isDigit
        (digitsToNat ip : ℚ) + (digitsToNat fd : ℚ) / (10 : ℚ) ^ fd.length
      else (digitsToNat ip : ℚ)
  | [] => (digitsToNat ip : ℚ)

/-- `parse_percentage_str` from `app.py`: strip whitespace, drop one trailing
`%`, normalise `,` to `.`, convert to a number. -/
def parse_percentage_str (s : List Char) : ℚ :=
  let s1 := stripWs s
  let s2 := if s1.getLast? = some '%' then s1.dropLast else s1
  let s3 := s2.map (fun c => if c = ',' then '.' else c)
  floatVal s3

/-! ### Primitive matchers for the regex pieces -/

/-- Greedy `(\d+)`: the maximal nonempty digit prefix and the rest. -/
def digits1 (cs : List Char) : Option (List Char × List Char) :=
  let d := cs.takeWhile Char.isDigit
  if d.isEmpty then none else some (d, cs.dropWhile Char.isDigit)

/-- Greedy `\s+`: consume a maximal nonempty whitespace prefix. -/
def ws1 (cs : List Char) : Option (List Char) :=
  if (cs.takeWhile isWs).isEmpty then none else some (cs.dropWhile isWs)

/-- Greedy `\s*`: consume a maximal (possibly empty) whitespace prefix. -/
def ws0 (cs : List Char) : List Char :=
  cs.dropWhile isWs

/-- Match one literal character. -/
def expectChar (c : Char) : List Char → Option (List Char)
  | [] => none
  | x :: r => if x = c then some r else none

/-- `(\d+[.,]?\d*)%`: the captured numeric group (without the `%`) and the
rest, with the regex's one-step backtracking on the optional separator. -/
def numPct (cs : List Char) : Option (List Char × List Char) :=
  match digits1 cs with
  | none => none
  | some (d1, r1) =>
    match r1 with
    | [] => none
    | c :: r2 =>
      if c = '.' || c = ',' then
        match expectChar '%' (r2.dropWhile Char.isDigit) with
        | some r3 => some (d1 ++ c :: r2.takeWhile Char.isDigit, r3)
        | none => none
      else if c = '%' then some (d1, r2)
      else none

/-- Captured groups of the summary-row pattern after the deck name. -/
structure RowTail where
  share : List Char
  wd : List Char
  ld : List Char
  td : List Char
  winp : List Char
deriving DecidableEq

/-- Rest of the summary pattern after the lazy name group:
`\s+(\d+[.,]?\d*)%\s+(\d+)\s*-\s*(\d+)\s*-\s*(\d+)\s+(\d+[.,]?\d*)%`. -/
def rowTail (cs : List Char) : Option (RowTail × List Char) := do
  let r ← ws1 cs
  let (sh, r) ← numPct r
  let r ← ws1 r
  let (wd, r) ← digits1 r
  let r ← expectChar '-' (ws0 r)
  let (ld, r) ← digits1 (ws0 r)
  let r ← expectChar '-' (ws0 r)
  let (td, r) ← digits1 (ws0 r)
  let r ← ws1 r
  let (wp, r) ← numPct r
  pure (⟨sh, wd, ld, td, wp⟩, r)

/-- The lazy `[^%]+?` continuation of the name group: try the remainder of
the pattern at the current position; on failure extend the captured name by
one more non-`%` character and retry, exactly as the backtracking engine
does. -/
def nameLoop : List Char → List Char → Option (List Char × RowTail × List Char)
  | [], _acc => none
  | c :: r, acc =>
    match rowTail (c :: r) with
    | some (t, rem) => some (acc, t, rem)
    | none => if c = '%' then none else nameLoop r (acc ++ [c])

/-- One record extracted from a summary page (`extract_overall_or_day`). -/
structure SummaryRecord where
  deck : String
  players : Nat
  share : ℚ
  wins : Nat
  losses : Nat
  ties : Nat
  win_pct : ℚ
deriving DecidableEq

/-- Build the record from the captured groups, as the loop body of
`extract_overall_or_day` does (including `.strip()` on the name). -/
def mkSummaryRecord (pd nm : List Char) (t : RowTail) : SummaryRecord :=
  { deck := String.mk (stripWs nm)
    players := digitsToNat pd
    share := parse_percentage_str t.share
    wins := digitsToNat t.wd
    losses := digitsToNat t.ld
    ties := digitsToNat t.td
    win_pct := parse_percentage_str t.winp }

/-- Attempt the whole summary-row pattern anchored at the head of `cs`;
returns the record and the remaining text after the match. -/
def matchSummaryAt (cs : List Char) : Option (SummaryRecord × List Char) :=
  match digits1 cs with
  | none => none
  | some (pd, r0) =>
    match ws1 r0 with
    | none => none
    | some r1 =>
      match r1 with
      | c0 :: c1 :: r2 =>
        if isUpperDigit c0 && !(c1 = '%') then
          match nameLoop r2 [c0, c1] with
          | some (nm, t, rem) => some (mkSummaryRecord pd nm t, rem)
          | none => none
        else none
      | _ => none

/-- `re.finditer` scan: try the pattern at every position left to right,
emitting non-overlapping matches.  Fuel is the length of the text; every
match consumes at least one character. -/
def extractSummaryAux : Nat → List Char → List SummaryRecord
  | 0, _ => []
  | _ + 1, [] => []
  | fuel + 1, c :: r =>
    match matchSummaryAt (c :: r) with
    | some (rec, rem) => rec :: extractSummaryAux fuel rem
    | none => extractSummaryAux fuel r

/-- `extract_overall_or_day` from `app.py`, on flattened page text. -/
def extract_overall_or_day (text : List Char) : List SummaryRecord :=
  extractSummaryAux text.length text

/-! ### Conversion extractor -/

/-- Captured groups of the conversion pattern after the deck name. -/
structure ConvTail where
  d1 : List Char
  d2 : List Char
  convp : List Char
deriving DecidableEq

/-- Rest of the conversion pattern after the lazy name group:
`\s+(\d+)\s+(\d+)\s+(\d+[.,]?\d*)%`. -/
def convTail (cs : List Char) : Option (ConvTail × List Char) := do
  let r ← ws1 cs
  let (a, r) ← digits1 r
  let r ← ws1 r
  let (b, r) ← digits1 r
  let r ← ws1 r
  let (cp, r) ← numPct r
  pure (⟨a, b, cp⟩, r)

/-- Lazy `[^%]+?` continuation for the conversion pattern. -/
def nameLoopConv : List Char → List Char → Option (List Char × ConvTail × List Char)
  | [], _acc => none
  | c :: r, acc =>
    match convTail (c :: r) with
    | some (t, rem) => some (acc, t, rem)
    | none => if c = '%' then none else nameLoopConv r (acc ++ [c])

/-- One record extracted from a conversion page (`extract_conversion`). -/
structure ConversionRecord where
  deck : String
  day1_players : Nat
  day2_players : Nat
  conv_pct : ℚ
deriving DecidableEq

/-- Attempt the whole conversion pattern anchored at the head of `cs`. -/
def matchConvAt (cs : List Char) : Option (ConversionRecord × List Char) :=
  match cs with
  | c0 :: c1 :: r2 =>
    if isUpperDigit c0 && !(c1 = '%') then
      match nameLoopConv r2 [c0, c1] with
      | some (nm, t, rem) =>
          some ({ deck := String.mk (stripWs nm)
                  day1_players := digitsToNat t.d1
                  day2_players := digitsToNat t.d2
                  conv_pct := parse_percentage_str t.convp }, rem)
      | none => none
    else none
  | _ => none

/-- `re.finditer` scan for the conversion pattern. -/
def extractConvAux : Nat → List Char → List ConversionRecord
  | 0, _ => []
  | _ + 1, [] => []
  | fuel + 1, c :: r =>
    match matchConvAt (c :: r) with
    | some (rec, rem) => rec :: extractConvAux fuel rem
    | none => extractConvAux fuel r

/-- `extract_conversion` from `app.py`, on flattened page text.  (The
`int()` conversions of the two `\d+` groups in the source can never raise,
so the `try/except ValueError` there is a no-op.) -/
def extract_conversion (text : List Char) : List ConversionRecord :=
  extractConvAux text.length text

/-! ### Matchup extractor -/

/-- A wins/losses/ties cell. -/
structure MatchupCell where
  wins : Nat
  losses : Nat
  ties : Nat
deriving DecidableEq

/-- One matchup row as extracted from a deck's matchup page. -/
structure MatchupRecord where
  wins : Nat
  losses : Nat
  ties : Nat
  win_pct : ℚ
deriving DecidableEq

/-- Case-insensitive match of the literal `opp` (``re.escape(opp)`` with
`re.IGNORECASE`) at the head of the text; returns the remainder. -/
def matchCI : List Char → List Char → Option (List Char)
  | [], rest => some rest
  | _ :: _, [] => none
  | o :: os, c :: cs => if o.toLower = c.toLower then matchCI os cs else none

/-- The numeric tail of the matchup pattern after the opponent literal:
`\s+(\d+)\s+(\d+)\s*-\s*(\d+)\s*-\s*(\d+)\s+(\d+[.,]?\d*)%`
(group 1, the match count `N`, is discarded by the source). -/
def matchupTail (cs : List Char) : Option (MatchupRecord × List Char) := do
  let r ← ws1 cs
  let (_n, r) ← digits1 r
  let r ← ws1 r
  let (w, r) ← digits1 r
  let r ← expectChar '-' (ws0 r)
  let (l, r) ← digits1 (ws0 r)
  let r ← expectChar '-' (ws0 r)
  let (t, r) ← digits1 (ws0 r)
  let r ← ws1 r
  let (wp, r) ← numPct r
  pure (⟨digitsToNat w, digitsToNat l, digitsToNat t, parse_percentage_str wp⟩, r)

/-- `re.search` for the matchup pattern of one opponent: first position,
scanning left to right, where the literal followed by the numeric tail
matches. -/
def searchMatchup (opp : List Char) : List Char → Option MatchupRecord
  | [] =>
    match matchCI opp [] with
    | some rest => (matchupTail rest).map (·.1)
    | none => none
  | c :: cs =>
    match matchCI opp (c :: cs) with
    | some rest =>
      match matchupTail rest with
      | some (m, _) => some m
      | none => searchMatchup opp cs
    | none => searchMatchup opp cs

/-- `extract_matchups_from_html` from `app.py`: for each candidate opponent
in the meta pool (in pool order, skipping the deck itself), take the first
match of the opponent-anchored pattern in the page text. -/
def extract_matchups_from_html (text : List Char) (this_deck : String)
    (meta_decks : List String) : List (String × MatchupRecord) :=
  meta_decks.filterMap (fun opp =>
    if opp = this_deck then none
    else (searchMatchup opp.data text).map (fun m => (opp, m)))

/-! ### Aggregation state: insertion-ordered default dicts -/

/-- A Python `defaultdict` keyed by deck name: a total value function
(absent key = default) plus the insertion-ordered key list. -/
structure StrDict (α : Type) where
  keys : List String
  get : String → α

/-- The empty dict with default value `d`. -/
def StrDict.empty (d : α) : StrDict α := ⟨[], fun _ => d⟩

/-- `d[k] = f(d[k])`, creating the key on first touch as `defaultdict` does. -/
def StrDict.upd (d : StrDict α) (k : String) (f : α → α) : StrDict α :=
  { keys := if k ∈ d.keys then d.keys else d.keys ++ [k]
    get := fun x => if x = k then f (d.get k) else d.get x }

/-- Per-deck `{"wins": _, "losses": _, "ties": _, "players": _}` bucket. -/
structure OStats where
  wins : Nat
  losses : Nat
  ties : Nat
  players : Nat
deriving DecidableEq

/-- Per-deck `{"day1": _, "day2": _}` conversion bucket. -/
structure CStats where
  day1 : Nat
  day2 : Nat
deriving DecidableEq

/-- The cross-tournament accumulation state of
`aggregate_tournaments_with_matchups` (step 1). -/
structure AggState where
  overall : StrDict OStats
  day2 : StrDict OStats
  conv : StrDict CStats
  deckUrls : StrDict (List String)

def initAgg : AggState :=
  ⟨StrDict.empty ⟨0, 0, 0, 0⟩, StrDict.empty ⟨0, 0, 0, 0⟩,
   StrDict.empty ⟨0, 0⟩, StrDict.empty []⟩

/-- The data of one tournament as seen by the aggregation core: the three
flattened page texts, plus the deck-URL map recovered by the external
HTML collaborator (`extract_deck_urls`, which works on markup rather than
flattened text and is therefore taken as an input here). -/
structure TournamentInput where
  overallText : List Char
  day2Text : List Char
  convText : List Char
  deckUrls : List (String × String)
deriving DecidableEq

/-- Fold one overall `SummaryRecord` into the state: sum the four counters
and record the deck's URL for this tournament when the main page has one
(`deck_urls_global[name].add(url)`, a set: append if unseen). -/
def applyOverall (t : TournamentInput) (s : AggState) (r : SummaryRecord) : AggState :=
  let s1 := { s with overall := s.overall.upd r.deck (fun o =>
    ⟨o.wins + r.wins, o.losses + r.losses, o.ties + r.ties, o.players + r.players⟩) }
  match t.deckUrls.lookup r.deck with
  | none => s1
  | some url =>
    { s1 with deckUrls := s1.deckUrls.upd r.deck (fun us =>
        if url ∈ us then us else us ++ [url]) }

/-- Fold one day-2 `SummaryRecord` into the state. -/
def applyDay2 (s : AggState) (r : SummaryRecord) : AggState :=
  { s with day2 := s.day2.upd r.deck (fun o =>
    ⟨o.wins + r.wins, o.losses + r.losses, o.ties + r.ties, o.players + r.players⟩) }

/-- Fold one `ConversionRecord` into the state. -/
def applyConv (s : AggState) (r : ConversionRecord) : AggState :=
  { s with conv := s.conv.upd r.deck (fun c =>
    ⟨c.day1 + r.day1_players, c.day2 + r.day2_players⟩) }

/-- Process one tournament: extract and fold the overall, day-2 and
conversion feeds (step 1 of `aggregate_tournaments_with_matchups`). -/
def processTournament (s : AggState) (t : TournamentInput) : AggState :=
  let s1 := (extract_overall_or_day t.overallText).foldl (applyOverall t) s
  let s2 := (extract_overall_or_day t.day2Text).foldl applyDay2 s1
  (extract_conversion t.convText).foldl applyConv s2

/-- Cross-tournament aggregation from an arbitrary starting state. -/
def aggFrom (s : AggState) (ts : List TournamentInput) : AggState :=
  ts.foldl processTournament s

/-- Cross-tournament aggregation of a tournament list. -/
def aggregateAll (ts : List TournamentInput) : AggState :=
  aggFrom initAgg ts

/-! ### Base rows and the base score (step 2) -/

/-- One output row (the dict appended to `base_rows`; the matchup fields are
filled by step 5, which runs for every row). -/
structure DeckRow where
  deck : String
  players_overall : Nat
  overall_win_pct : ℚ
  players_day2 : Nat
  day2_win_pct : Option ℚ
  conv_pct : Option ℚ
  base_score : ℚ
  matchup_score : ℚ
  final_score : ℚ
deriving DecidableEq

/-- The loop body of step 2: the row built for `deck`, or `none` when the
deck fails the `min_players` filter or has no overall games.  (For the day-2
and conversion buckets, a missing key reads as the all-zero bucket, which
takes the same branch as Python's `None` from `.get`.) -/
def mkBaseRow (agg : AggState) (min_players : Nat) (deck : String) : Option DeckRow :=
  let o := agg.overall.get deck
  if o.players < min_players then none
  else
    let tg := o.wins + o.losses + o.ties
    if tg = 0 then none
    else
      let owp : ℚ := ((o.wins : ℚ) + 0.5 * o.ties) / (tg : ℚ) * 100
      let d2 := agg.day2.get deck
      let gd2 := d2.wins + d2.losses + d2.ties
      let d2wp : Option ℚ :=
        if 0 < gd2 then some (((d2.wins : ℚ) + 0.5 * d2.ties) / (gd2 : ℚ) * 100) else none
      let c := agg.conv.get deck
      let cp : Option ℚ := if 0 < c.day1 then some ((c.day2 : ℚ) / (c.day1 : ℚ) * 100) else none
      let d2ForScore := match d2wp with | some v => v | none => owp
      let convForScore := match cp with | some v => v | none => (50 : ℚ)
      some { deck := deck
             players_overall := o.players
             overall_win_pct := owp
             players_day2 := d2.players
             day2_win_pct := d2wp
             conv_pct := cp
             base_score := 0.4 * owp + 0.4 * d2ForScore + 0.2 * convForScore
             matchup_score := 0
             final_score := 0 }

/-- Step 2: iterate `overall_stats.items()` in insertion order. -/
def baseRowsOf (agg : AggState) (min_players : Nat) : List DeckRow :=
  agg.overall.keys.filterMap (mkBaseRow agg min_players)

/-! ### Stable sorts (Python `list.sort` with `reverse=True` is stable) -/

/-- Stable descending insertion by overall player count. -/
def insertByPlayers (x : DeckRow) : List DeckRow → List DeckRow
  | [] => [x]
  | y :: ys =>
    if y.players_overall ≤ x.players_overall then x :: y :: ys
    else y :: insertByPlayers x ys

/-- Stable descending sort by overall player count
(`base_rows.sort(key=players_overall, reverse=True)`). -/
def sortByPlayers : List DeckRow → List DeckRow
  | [] => []
  | x :: xs => insertByPlayers x (sortByPlayers xs)

/-- Stable descending insertion by final score. -/
def insertByFinal (x : DeckRow) : List DeckRow → List DeckRow
  | [] => [x]
  | y :: ys =>
    if y.final_score ≤ x.final_score then x :: y :: ys
    else y :: insertByFinal x ys

/-- Stable descending sort by final score
(`base_rows.sort(key=final_score, reverse=True)`). -/
def sortByFinal : List DeckRow → List DeckRow
  | [] => []
  | x :: xs => insertByFinal x (sortByFinal xs)

/-! ### Meta pool and weights (step 3) -/

/-- `meta_decks = {row["deck"] for row in base_rows[:meta_pool_size]}`. -/
def metaPoolOf (rows : List DeckRow) (meta_pool_size : Nat) : List String :=
  (rows.take meta_pool_size).map (·.deck)

/-- `total_players_meta`: summed over the rows whose deck is in the pool. -/
def totalPlayersMeta (rows : List DeckRow) (pool : List String) : Nat :=
  ((rows.filter (fun r => r.deck ∈ pool)).map (·.players_overall)).sum

/-- The `meta_weight` dict with its `.get(opp, 0.0)` read: pool members get
their share of the pool's players, everything else reads as `0`. -/
def metaWeightOf (rows : List DeckRow) (pool : List String) (d : String) : ℚ :=
  if d ∈ pool ∧ 0 < totalPlayersMeta rows pool then
    match rows.find? (fun r => r.deck = d) with
    | some r => (r.players_overall : ℚ) / (totalPlayersMeta rows pool : ℚ)
    | none => 0
  else 0

/-! ### Matchup matrix accumulation (step 4) -/

/-- The nested `matchups_agg` defaultdict: insertion-ordered outer and inner
key lists plus the total cell function (absent cell = all-zero). -/
structure MMatrix where
  outer : List String
  inner : String → List String
  cell : String → String → MatchupCell

def emptyMatrix : MMatrix := ⟨[], fun _ => [], fun _ _ => ⟨0, 0, 0⟩⟩

/-- Add `(w,l,t)` into `matchups_agg[a][b]` (touching both key levels). -/
def addDir (m : MMatrix) (a b : String) (w l t : Nat) : MMatrix :=
  { outer := if a ∈ m.outer then m.outer else m.outer ++ [a]
    inner := fun x =>
      if x = a then (if b ∈ m.inner a then m.inner a else m.inner a ++ [b])
      else m.inner x
    cell := fun x y =>
      if x = a ∧ y = b then
        ⟨(m.cell a b).wins + w, (m.cell a b).losses + l, (m.cell a b).ties + t⟩
      else m.cell x y }

/-- One discovered matchup `(deck → opp, {w,l,t})`: the page direction plus
the mirrored direction with wins and losses swapped. -/
def addEvent (m : MMatrix) (deck opp : String) (w l t : Nat) : MMatrix :=
  addDir (addDir m deck opp w l t) opp deck l w t

/-- Fold a list of discovered matchups from one deck's page into the matrix. -/
def accumPage (m : MMatrix) (deck : String) (ms : List (String × MatchupRecord)) : MMatrix :=
  ms.foldl (fun m p => addEvent m deck p.1 p.2.wins p.2.losses p.2.ties) m

/-- URL normalisation of `fetch_matchups_for_deck`: ensure the `/matchups`
tab (`rstrip("/") + "/matchups"` unless already a matchups URL). -/
def normalizeMatchupUrl (u : String) : String :=
  if ("/matchups".data).isSuffixOf u.data then u
  else String.mk (((u.data.reverse.dropWhile (· = '/')).reverse) ++ "/matchups".data)

/-- Process one URL of a meta deck: fetch (the external page fetcher is an
oracle `String → Option text`; `none` is the exception path, caught and
skipped by the `try/except` in the source), extract against the pool, and
accumulate. -/
def processUrl (pool : List String) (fetch : String → Option (List Char))
    (deck : String) (m : MMatrix) (url : String) : MMatrix :=
  match fetch (normalizeMatchupUrl url) with
  | none => m
  | some text => accumPage m deck (extract_matchups_from_html text deck pool)

/-- Process all URLs recorded for one deck. -/
def processUrls (pool : List String) (fetch : String → Option (List Char))
    (deck : String) (m : MMatrix) (urls : List String) : MMatrix :=
  urls.foldl (processUrl pool fetch deck) m

/-- Step 4: accumulate matchups over every meta deck's URL list. -/
def buildMatchups (pool : List String) (urlsOf : String → List String)
    (fetch : String → Option (List Char)) : MMatrix :=
  pool.foldl (fun m deck => processUrls pool fetch deck m (urlsOf deck)) emptyMatrix

/-! ### Matchup score and final score (step 5) -/

/-- The matchup score of one deck: iterate its inner dict, skip empty cells,
and sum `meta_weight[opp] * (win_pct_vs_opp − 50)`. -/
def matchupScore (m : MMatrix) (weight : String → ℚ) (deck : String) : ℚ :=
  (m.inner deck).foldl (fun acc opp =>
    let s := m.cell deck opp
    let g := s.wins + s.losses + s.ties
    if g = 0 then acc
    else acc + weight opp * (((s.wins : ℚ) + 0.5 * s.ties) / (g : ℚ) * 100 - 50)) 0

/-- Step 5: set `matchup_score` and `final_score` on every row. -/
def scoreRows (rows : List DeckRow) (m : MMatrix) (weight : String → ℚ)
    (matchup_weight : ℚ) : List DeckRow :=
  rows.map (fun r =>
    let s := matchupScore m weight r.deck
    { r with matchup_score := s, final_score := r.base_score + matchup_weight * s })

/-! ### The full pipeline -/

/-- The rows of steps 2–3, sorted by player count to define the meta. -/
def rankedBaseRows (ts : List TournamentInput) (min_players : Nat) : List DeckRow :=
  sortByPlayers (baseRowsOf (aggregateAll ts) min_players)

/-- The meta pool of a run. -/
def pipelinePool (ts : List TournamentInput) (min_players meta_pool_size : Nat) :
    List String :=
  metaPoolOf (rankedBaseRows ts min_players) meta_pool_size

/-- `aggregate_tournaments_with_matchups` from `app.py`: steps 1–5.
Returns the scored, final-sorted rows and the accumulated matchup matrix. -/
def aggregate_tournaments_with_matchups (ts : List TournamentInput)
    (min_players meta_pool_size : Nat) (matchup_weight : ℚ)
    (fetch : String → Option (List Char)) : List DeckRow × MMatrix :=
  let agg := aggregateAll ts
  let rows := rankedBaseRows ts min_players
  let pool := pipelinePool ts min_players meta_pool_size
  let w := metaWeightOf rows pool
  let m := buildMatchups pool (fun d => agg.deckUrls.get d) fetch
  (sortByFinal (scoreRows rows m w matchup_weight), m)

/-! ### Matchup symmetry (claim C2) -/

/-- The symmetry invariant of the matchup matrix. -/
def SymMatrix (m : MMatrix) : Prop :=
  ∀ X Y : String,
    (m.cell X Y).wins = (m.cell Y X).losses ∧
    (m.cell X Y).losses = (m.cell Y X).wins ∧
    (m.cell X Y).ties = (m.cell Y X).ties

theorem symMatrix_empty : SymMatrix emptyMatrix := by
  intro X Y; exact ⟨rfl, rfl, rfl⟩

/-- Closed form of one symmetric accumulation step: the mirrored cell when
`(X, Y)` is the mirror pair, the direct cell when it is the page pair, and
the old value elsewhere (with the doubled diagonal when `deck = opp`). -/
theorem addEvent_cell (m : MMatrix) (deck opp : String) (w l t : Nat) (X Y : String) :
    (addEvent m deck opp w l t).cell X Y =
      if X = opp ∧ Y = deck then
        (if opp = deck then
          ⟨(m.cell deck opp).wins + w + l, (m.cell deck opp).losses + l + w,
           (m.cell deck opp).ties + t + t⟩
         else
          ⟨(m.cell opp deck).wins + l, (m.cell opp deck).losses + w,
           (m.cell opp deck).ties + t⟩)
      else if X = deck ∧ Y = opp then
        ⟨(m.cell deck opp).wins + w, (m.cell deck opp).losses + l,
         (m.cell deck opp).ties + t⟩
      else m.cell X Y := by
  simp only [addEvent, addDir]
  by_cases hE : X = opp ∧ Y = deck
  · rw [if_pos hE, if_pos hE]
    by_cases hod : opp = deck
    · subst hod; simp
    · rw [if_neg hod, if_neg (fun h => hod h.1)]
  · rw [if_neg hE, if_neg hE]

theorem symMatrix_addEvent (m : MMatrix) (hm : SymMatrix m) (deck opp : String)
    (w l t : Nat) : SymMatrix (addEvent m deck opp w l t) := by
  intro X Y
  rw [addEvent_cell, addEvent_cell]
  by_cases hA : X = opp ∧ Y = deck <;> by_cases hB : Y = opp ∧ X = deck
  · -- both directions hit the mirror branch: everything coincides
    have hod : opp = deck := hA.1.symm.trans hB.2
    obtain ⟨h1, h2, h3⟩ := hm deck opp
    rw [if_pos hA, if_pos hB, if_pos hod]
    rw [hod] at h1 h2 h3 ⊢
    refine ⟨?_, ?_, ?_⟩ <;> (try dsimp) <;> omega
  · -- (X,Y) is the mirror pair, (Y,X) the page pair
    have hod : ¬ opp = deck := fun h => hB ⟨hA.2.trans h.symm, hA.1.trans h⟩
    obtain ⟨h1, h2, h3⟩ := hm opp deck
    rw [if_pos hA, if_neg hod, if_neg hB, if_pos ⟨hA.2, hA.1⟩]
    refine ⟨?_, ?_, ?_⟩ <;> (try dsimp) <;> omega
  · -- (Y,X) is the mirror pair, (X,Y) the page pair
    have hod : ¬ opp = deck := fun h => hA ⟨hB.2.trans h.symm, hB.1.trans h⟩
    obtain ⟨h1, h2, h3⟩ := hm opp deck
    rw [if_neg hA, if_pos ⟨hB.2, hB.1⟩, if_pos hB, if_neg hod]
    refine ⟨?_, ?_, ?_⟩ <;> (try dsimp) <;> omega
  · -- neither direction is the mirror pair
    rw [if_neg hA, if_neg hB]
    by_cases hC : X = deck ∧ Y = opp
    · exact absurd ⟨hC.2, hC.1⟩ hB
    · by_cases hD : Y = deck ∧ X = opp
      · exact absurd ⟨hD.2, hD.1⟩ hA
      · rw [if_neg hC, if_neg hD]
        exact hm X Y

theorem symMatrix_accumPage (deck : String) (ms : List (String × MatchupRecord)) :
    ∀ m : MMatrix, SymMatrix m → SymMatrix (accumPage m deck ms) := by
  induction ms with
  | nil => intro m hm; exact hm
  | cons p ps ih =>
    intro m hm
    exact ih _ (symMatrix_addEvent m hm deck p.1 p.2.wins p.2.losses p.2.ties)

theorem symMatrix_processUrl (pool : List String) (fetch : String → Option (List Char))
    (deck : String) (m : MMatrix) (hm : SymMatrix m) (url : String) :
    SymMatrix (processUrl pool fetch deck m url) := by
  unfold processUrl
  cases fetch (normalizeMatchupUrl url) with
  | none => exact hm
  | some text => exact symMatrix_accumPage deck _ m hm

theorem symMatrix_processUrls (pool : List String) (fetch : String → Option (List Char))
    (deck : String) (urls : List String) :
    ∀ m : MMatrix, SymMatrix m → SymMatrix (processUrls pool fetch deck m urls) := by
  induction urls with
  | nil => intro m hm; exact hm
  | cons u us ih =>
    intro m hm
    exact ih _ (symMatrix_processUrl pool fetch deck m hm u)

theorem symMatrix_buildMatchups (pool : List String) (urlsOf : String → List String)
    (fetch : String → Option (List Char)) :
    SymMatrix (buildMatchups pool urlsOf fetch) := by
  unfold buildMatchups
  have : ∀ (decks : List String) (m : MMatrix), SymMatrix m →
      SymMatrix (decks.foldl (fun m deck => processUrls pool fetch deck m (urlsOf deck)) m) := by
    intro decks
    induction decks with
    | nil => intro m hm; exact hm
    | cons d ds ih =>
      intro m hm
      exact ih _ (symMatrix_processUrls pool fetch d (urlsOf d) m hm)
  exact this pool emptyMatrix symMatrix_empty

/-- Claim C2: in the matchup matrix returned by
`aggregate_tournaments_with_matchups`, for every pair of deck names the cell
`(X, Y)` has the wins of `(Y, X)` as its losses, the losses of `(Y, X)` as
its wins, and the same ties, for any inputs, fetch results and accumulation
order (this holds for all pairs, in particular for every pair with a
non-empty cell). -/
theorem matchup_matrix_symmetric (ts : List TournamentInput)
    (min_players meta_pool_size : Nat) (matchup_weight : ℚ)
    (fetch : String → Option (List Char)) (X Y : String) :
    (((aggregate_tournaments_with_matchups ts min_players meta_pool_size
        matchup_weight fetch).2).cell X Y).wins =
      (((aggregate_tournaments_with_matchups ts min_players meta_pool_size
        matchup_weight fetch).2).cell Y X).losses ∧
    (((aggregate_tournaments_with_matchups ts min_players meta_pool_size
        matchup_weight fetch).2).cell X Y).losses =
      (((aggregate_tournaments_with_matchups ts min_players meta_pool_size
        matchup_weight fetch).2).cell Y X).wins ∧
    (((aggregate_tournaments_with_matchups ts min_players meta_pool_size
        matchup_weight fetch).2).cell X Y).ties =
      (((aggregate_tournaments_with_matchups ts min_players meta_pool_size
        matchup_weight fetch).2).cell Y X).ties := by
  exact symMatrix_buildMatchups _ _ _ X Y

/-! ### Fetch-failure tolerance (claim C8) -/

/-- Claim C8: a failed fetch for one URL of a meta deck (the exception path
of the `try/except`) leaves the accumulated matrix exactly as it was, and
processing a URL list containing the failing URL gives the same result as
processing the list without it — the deck's remaining URLs (and, since the
deck fold is a fold over this function, all other decks) are still
processed. -/
theorem fetch_failure_skipped (pool : List String)
    (fetch : String → Option (List Char)) (deck : String) (m : MMatrix)
    (url : String) (us1 us2 : List String)
    (h : fetch (normalizeMatchupUrl url) = none) :
    processUrl pool fetch deck m url = m ∧
    processUrls pool fetch deck m (us1 ++ url :: us2) =
      processUrls pool fetch deck m (us1 ++ us2) := by
  have hskip : ∀ m' : MMatrix, processUrl pool fetch deck m' url = m' := by
    intro m'; unfold processUrl; rw [h]
  refine ⟨hskip m, ?_⟩
  unfold processUrls
  rw [List.foldl_append, List.foldl_append, List.foldl_cons, hskip]

theorem fetch_failure_skipped_witness :
    ((fun _ : String => (none : Option (List Char))) (normalizeMatchupUrl "u") = none) ∧
    (processUrl ["A"] (fun _ => none) "A" emptyMatrix "u" = emptyMatrix ∧
      processUrls ["A"] (fun _ => none) "A" emptyMatrix (["v"] ++ "u" :: ["w"]) =
        processUrls ["A"] (fun _ => none) "A" emptyMatrix (["v"] ++ ["w"])) :=
  ⟨rfl, fetch_failure_skipped ["A"] (fun _ => none) "A" emptyMatrix "u" ["v"] ["w"] rfl⟩

/-! ### Determinism of the pipeline (claim C9) -/

/-- Claim C9: the pipeline is a pure function of its inputs — two runs on
identical input texts (and identical fetched matchup pages and
configuration) produce identical scored rows, in the same order, and an
identical matchup matrix.  (Python-side caveats recorded in the results:
iteration over `set` objects is modelled as deterministic insertion order,
and float arithmetic as exact rationals, for which summation order cannot
change values.) -/
theorem pipeline_run_twice (ts ts' : List TournamentInput)
    (mp mp' ms ms' : Nat) (β β' : ℚ)
    (fetch fetch' : String → Option (List Char))
    (h1 : ts = ts') (h2 : mp = mp') (h3 : ms = ms') (h4 : β = β')
    (h5 : fetch = fetch') :
    aggregate_tournaments_with_matchups ts mp ms β fetch =
      aggregate_tournaments_with_matchups ts' mp' ms' β' fetch' := by
  subst h1; subst h2; subst h3; subst h4; subst h5; rfl

theorem pipeline_run_twice_witness :
    aggregate_tournaments_with_matchups
        [⟨"30 Alpha Deck 60.0% 60 - 30 - 10 60.0%".data, [], [], []⟩] 20 2 (1/2)
        (fun _ => none) =
      aggregate_tournaments_with_matchups
        [⟨"30 Alpha Deck 60.0% 60 - 30 - 10 60.0%".data, [], [], []⟩] 20 2 (1/2)
        (fun _ => none) :=
  pipeline_run_twice _ _ _ _ _ _ _ _ _ _ rfl rfl rfl rfl rfl

/-! ### The base-score formula (claim C1) -/

/-- Claim C1: for every deck that passes the `min_players` filter and has at
least one overall game (i.e. `mkBaseRow` returns a row), the row's overall
win percentage is `(wins + 0.5·ties)/(wins+losses+ties)·100` over the
accumulated overall bucket, the base score is
`0.4·overall + 0.4·(day2 win pct if day-2 games > 0 else overall) +
0.2·(conversion pct if accumulated day1 > 0 else 50)`, and in particular a
deck with zero day-2 games and no conversion data gets
`0.8·overall_win_pct + 0.2·50`, not `overall_win_pct`. -/
theorem base_score_formula (agg : AggState) (min_players : Nat) (deck : String)
    (row : DeckRow) (h : mkBaseRow agg min_players deck = some row) :
    row.overall_win_pct =
      (((agg.overall.get deck).wins : ℚ) + 0.5 * (agg.overall.get deck).ties) /
        (((agg.overall.get deck).wins + (agg.overall.get deck).losses +
          (agg.overall.get deck).ties : Nat) : ℚ) * 100 ∧
    row.base_score =
      0.4 * row.overall_win_pct +
      0.4 * (if 0 < (agg.day2.get deck).wins + (agg.day2.get deck).losses +
                  (agg.day2.get deck).ties then
          (((agg.day2.get deck).wins : ℚ) + 0.5 * (agg.day2.get deck).ties) /
            (((agg.day2.get deck).wins + (agg.day2.get deck).losses +
              (agg.day2.get deck).ties : Nat) : ℚ) * 100
        else row.overall_win_pct) +
      0.2 * (if 0 < (agg.conv.get deck).day1 then
          ((agg.conv.get deck).day2 : ℚ) / ((agg.conv.get deck).day1 : ℚ) * 100
        else 50) ∧
    ((agg.day2.get deck).wins + (agg.day2.get deck).losses +
        (agg.day2.get deck).ties = 0 →
      (agg.conv.get deck).day1 = 0 →
      row.base_score = 0.8 * row.overall_win_pct + 0.2 * 50) := by
  simp only [mkBaseRow] at h
  by_cases hp : (agg.overall.get deck).players < min_players
  · rw [if_pos hp] at h; cases h
  · rw [if_neg hp] at h
    by_cases hg : (agg.overall.get deck).wins + (agg.overall.get deck).losses +
        (agg.overall.get deck).ties = 0
    · rw [if_pos hg] at h; cases h
    · rw [if_neg hg] at h
      injection h with h
      subst h
      refine ⟨rfl, ?_, ?_⟩
      · by_cases hd2 : 0 < (agg.day2.get deck).wins + (agg.day2.get deck).losses +
            (agg.day2.get deck).ties <;>
          by_cases hc : 0 < (agg.conv.get deck).day1 <;>
          simp [hd2, hc]
      · intro h1 h2
        have hd2 : ¬ 0 < (agg.day2.get deck).wins + (agg.day2.get deck).losses +
            (agg.day2.get deck).ties := by omega
        have hc : ¬ 0 < (agg.conv.get deck).day1 := by omega
        rw [if_neg hd2, if_neg hc]
        dsimp only
        ring

/-! ### Properties of the stable sorts -/

theorem perm_insertByFinal (x : DeckRow) (l : List DeckRow) :
    List.Perm (insertByFinal x l) (x :: l) := by
  induction l with
  | nil => exact List.Perm.refl _
  | cons y ys ih =>
    by_cases hc : y.final_score ≤ x.final_score
    · simp only [insertByFinal, if_pos hc]
      exact List.Perm.refl _
    · simp only [insertByFinal, if_neg hc]
      exact (List.Perm.cons y ih).trans (List.Perm.swap x y ys)

theorem perm_sortByFinal (l : List DeckRow) : List.Perm (sortByFinal l) l := by
  induction l with
  | nil => exact List.Perm.refl _
  | cons x xs ih =>
    exact (perm_insertByFinal x (sortByFinal xs)).trans (List.Perm.cons x ih)

theorem perm_insertByPlayers (x : DeckRow) (l : List DeckRow) :
    List.Perm (insertByPlayers x l) (x :: l) := by
  induction l with
  | nil => exact List.Perm.refl _
  | cons y ys ih =>
    by_cases hc : y.players_overall ≤ x.players_overall
    · simp only [insertByPlayers, if_pos hc]
      exact List.Perm.refl _
    · simp only [insertByPlayers, if_neg hc]
      exact (List.Perm.cons y ih).trans (List.Perm.swap x y ys)

theorem perm_sortByPlayers (l : List DeckRow) : List.Perm (sortByPlayers l) l := by
  induction l with
  | nil => exact List.Perm.refl _
  | cons x xs ih =>
    exact (perm_insertByPlayers x (sortByPlayers xs)).trans (List.Perm.cons x ih)

theorem sorted_insertByFinal (x : DeckRow) (l : List DeckRow)
    (h : List.Sorted (fun a b => b.final_score ≤ a.final_score) l) :
    List.Sorted (fun a b => b.final_score ≤ a.final_score) (insertByFinal x l) := by
  induction l with
  | nil => simp [insertByFinal]
  | cons y ys ih =>
    rw [List.sorted_cons] at h
    obtain ⟨hy, hys⟩ := h
    by_cases hc : y.final_score ≤ x.final_score
    · simp only [insertByFinal, if_pos hc]
      rw [List.sorted_cons]
      refine ⟨?_, ?_⟩
      · intro b hb
        rcases List.mem_cons.mp hb with rfl | hb'
        · exact hc
        · exact le_trans (hy b hb') hc
      · rw [List.sorted_cons]; exact ⟨hy, hys⟩
    · simp only [insertByFinal, if_neg hc]
      rw [List.sorted_cons]
      refine ⟨?_, ih hys⟩
      intro b hb
      have hb2 : b ∈ x :: ys := (perm_insertByFinal x ys).mem_iff.mp hb
      rcases List.mem_cons.mp hb2 with rfl | hb'
      · exact le_of_lt (not_le.mp hc)
      · exact hy b hb'

theorem sorted_sortByFinal (l : List DeckRow) :
    List.Sorted (fun a b => b.final_score ≤ a.final_score) (sortByFinal l) := by
  induction l with
  | nil => simp [sortByFinal]
  | cons x xs ih => exact sorted_insertByFinal x (sortByFinal xs) ih

theorem filter_insertByFinal (x : DeckRow) (l : List DeckRow) (q : ℚ) :
    (insertByFinal x l).filter (fun r => decide (r.final_score = q)) =
      (x :: l).filter (fun r => decide (r.final_score = q)) := by
  induction l with
  | nil => rfl
  | cons y ys ih =>
    by_cases hc : y.final_score ≤ x.final_score
    · simp only [insertByFinal, if_pos hc]
    · simp only [insertByFinal, if_neg hc]
      have hlt : x.final_score < y.final_score := not_le.mp hc
      by_cases hx : x.final_score = q <;> by_cases hy : y.final_score = q
      · exact absurd (hx.trans hy.symm) (ne_of_lt hlt)
      · simp [List.filter_cons, hx, hy, ih]
      · simp [List.filter_cons, hx, hy, ih]
      · simp [List.filter_cons, hx, hy, ih]

theorem filter_sortByFinal (l : List DeckRow) (q : ℚ) :
    (sortByFinal l).filter (fun r => decide (r.final_score = q)) =
      l.filter (fun r => decide (r.final_score = q)) := by
  induction l with
  | nil => rfl
  | cons x xs ih =>
    show (insertByFinal x (sortByFinal xs)).filter _ = _
    rw [filter_insertByFinal]
    by_cases hx : x.final_score = q <;> simp [List.filter_cons, hx, ih]

/-! ### Final score and final ranking (claim C5) -/

/-- The rows entering the final sort: the ranked base rows with matchup and
final scores filled in (the "input order" for tie-breaking). -/
def scoredRows (ts : List TournamentInput) (min_players meta_pool_size : Nat)
    (matchup_weight : ℚ) (fetch : String → Option (List Char)) : List DeckRow :=
  scoreRows (rankedBaseRows ts min_players)
    (buildMatchups (pipelinePool ts min_players meta_pool_size)
      (fun d => (aggregateAll ts).deckUrls.get d) fetch)
    (metaWeightOf (rankedBaseRows ts min_players)
      (pipelinePool ts min_players meta_pool_size))
    matchup_weight

theorem pipeline_fst_eq_sortScored (ts : List TournamentInput)
    (mp ms : Nat) (β : ℚ) (fetch : String → Option (List Char)) :
    (aggregate_tournaments_with_matchups ts mp ms β fetch).1 =
      sortByFinal (scoredRows ts mp ms β fetch) := rfl

/-- Claim C5: every returned row satisfies
`final_score = base_score + matchup_weight · matchup_score`; the returned
sequence is the stable descending sort of the scored rows by final score —
it is a permutation of them, sorted by `final_score` descending, and rows
with equal final score keep their pre-sort (input) order. -/
theorem final_score_and_ranking (ts : List TournamentInput)
    (mp ms : Nat) (β : ℚ) (fetch : String → Option (List Char)) :
    (∀ row ∈ (aggregate_tournaments_with_matchups ts mp ms β fetch).1,
      row.final_score = row.base_score + β * row.matchup_score) ∧
    List.Perm (aggregate_tournaments_with_matchups ts mp ms β fetch).1
      (scoredRows ts mp ms β fetch) ∧
    List.Sorted (fun a b => b.final_score ≤ a.final_score)
      (aggregate_tournaments_with_matchups ts mp ms β fetch).1 ∧
    (∀ q : ℚ,
      ((aggregate_tournaments_with_matchups ts mp ms β fetch).1).filter
          (fun r => decide (r.final_score = q)) =
        (scoredRows ts mp ms β fetch).filter (fun r => decide (r.final_score = q))) := by
  refine ⟨?_, ?_, ?_, ?_⟩
  · intro row hrow
    rw [pipeline_fst_eq_sortScored] at hrow
    have hmem : row ∈ scoredRows ts mp ms β fetch :=
      (perm_sortByFinal _).mem_iff.mp hrow
    obtain ⟨r, _hr, rfl⟩ := List.mem_map.mp hmem
    rfl
  · rw [pipeline_fst_eq_sortScored]; exact perm_sortByFinal _
  · rw [pipeline_fst_eq_sortScored]; exact sorted_sortByFinal _
  · intro q
    rw [pipeline_fst_eq_sortScored]
    exact filter_sortByFinal _ q

theorem final_score_and_ranking_witness :
    (⟨"Alpha Deck", 25, 75, 0, none, none, 70, 0, 70⟩ : DeckRow).final_score =
      (⟨"Alpha Deck", 25, 75, 0, none, none, 70, 0, 70⟩ : DeckRow).base_score +
        (1/2 : ℚ) *
          (⟨"Alpha Deck", 25, 75, 0, none, none, 70, 0, 70⟩ : DeckRow).matchup_score :=
  (final_score_and_ranking
      [⟨"25 Alpha Deck 60.0% 6 - 2 - 0 75.0%".data, [], [], []⟩] 20 5 (1/2)
      (fun _ => none)).1 _ (of_decide_eq_true (by with_unfolding_all rfl))

/-! ### The minimum-player filter (claim C6) -/

/-- Field facts recovered from a successful `mkBaseRow`. -/
theorem mkBaseRow_facts (agg : AggState) (min_players : Nat) (deck : String)
    (row : DeckRow) (h : mkBaseRow agg min_players deck = some row) :
    row.deck = deck ∧ row.players_overall = (agg.overall.get deck).players ∧
      ¬ (agg.overall.get deck).players < min_players := by
  simp only [mkBaseRow] at h
  by_cases hp : (agg.overall.get deck).players < min_players
  · rw [if_pos hp] at h; cases h
  · rw [if_neg hp] at h
    by_cases hg : (agg.overall.get deck).wins + (agg.overall.get deck).losses +
        (agg.overall.get deck).ties = 0
    · rw [if_pos hg] at h; cases h
    · rw [if_neg hg] at h
      injection h with h
      subst h
      exact ⟨rfl, rfl, hp⟩

/-- Decompose membership in the final rows back to the producing deck. -/
theorem mem_pipeline_rows (ts : List TournamentInput) (mp ms : Nat) (β : ℚ)
    (fetch : String → Option (List Char)) (row : DeckRow)
    (hrow : row ∈ (aggregate_tournaments_with_matchups ts mp ms β fetch).1) :
    ∃ r : DeckRow, ∃ d : String, mkBaseRow (aggregateAll ts) mp d = some r ∧
      row.deck = r.deck ∧ row.players_overall = r.players_overall ∧
      row.base_score = r.base_score := by
  rw [pipeline_fst_eq_sortScored] at hrow
  have h1 : row ∈ scoredRows ts mp ms β fetch :=
    (perm_sortByFinal _).mem_iff.mp hrow
  obtain ⟨r, hr, rfl⟩ := List.mem_map.mp h1
  have h2 : r ∈ baseRowsOf (aggregateAll ts) mp :=
    (perm_sortByPlayers _).mem_iff.mp hr
  obtain ⟨d, _hd, hmk⟩ := List.mem_filterMap.mp h2
  exact ⟨r, d, hmk, rfl, rfl, rfl⟩

/-- Claim C6: a deck whose accumulated overall player count is below
`min_players` never appears in the output ranking, whatever its other
statistics and the configuration. -/
theorem min_players_filter (ts : List TournamentInput) (mp ms : Nat) (β : ℚ)
    (fetch : String → Option (List Char)) (deck : String)
    (hlow : ((aggregateAll ts).overall.get deck).players < mp)
    (row : DeckRow)
    (hrow : row ∈ (aggregate_tournaments_with_matchups ts mp ms β fetch).1) :
    row.deck ≠ deck := by
  obtain ⟨r, d, hmk, hdeck, _hp, _hb⟩ := mem_pipeline_rows ts mp ms β fetch row hrow
  obtain ⟨hrd, _hrp, hge⟩ := mkBaseRow_facts _ _ _ _ hmk
  intro hcontra
  rw [hcontra, hrd] at hdeck
  rw [hdeck] at hlow
  exact hge hlow

theorem min_players_filter_witness :
    (((aggregateAll [⟨("25 Alpha Deck 60.0% 6 - 2 - 0 75.0%" ++
        " 5 Tiny Deck 2.0% 9 - 1 - 0 90.0%").data, [], [], []⟩]).overall.get
        "Tiny Deck").players < 20) ∧
    (⟨"Alpha Deck", 25, 75, 0, none, none, 70, 0, 70⟩ : DeckRow).deck ≠ "Tiny Deck" :=
  ⟨of_decide_eq_true (by with_unfolding_all rfl),
   min_players_filter
     [⟨("25 Alpha Deck 60.0% 6 - 2 - 0 75.0%" ++
       " 5 Tiny Deck 2.0% 9 - 1 - 0 90.0%").data, [], [], []⟩] 20 5 (1/2)
     (fun _ => none) "Tiny Deck"
     (of_decide_eq_true (by with_unfolding_all rfl))
     ⟨"Alpha Deck", 25, 75, 0, none, none, 70, 0, 70⟩
     (of_decide_eq_true (by with_unfolding_all rfl))⟩

theorem base_score_formula_witness :
    (⟨"X", 25, 75, 0, none, none, 70, 0, 0⟩ : DeckRow).base_score =
      0.8 * (⟨"X", 25, 75, 0, none, none, 70, 0, 0⟩ : DeckRow).overall_win_pct +
        0.2 * 50 :=
  (base_score_formula
      ⟨⟨["X"], fun _ => ⟨3, 1, 0, 25⟩⟩, ⟨[], fun _ => ⟨0, 0, 0, 0⟩⟩,
        ⟨[], fun _ => ⟨0, 0⟩⟩, ⟨[], fun _ => []⟩⟩ 20 "X"
      ⟨"X", 25, 75, 0, none, none, 70, 0, 0⟩
      (by with_unfolding_all rfl)).2.2 rfl rfl

/-! ### Decks outside the meta pool (claim C7) -/

theorem mem_extract_matchups (text : List Char) (this_deck : String)
    (pool : List String) (p : String × MatchupRecord)
    (h : p ∈ extract_matchups_from_html text this_deck pool) : p.1 ∈ pool := by
  obtain ⟨opp, hopp, hmap⟩ := List.mem_filterMap.mp h
  by_cases he : opp = this_deck
  · rw [if_pos he] at hmap; cases hmap
  · rw [if_neg he] at hmap
    cases hsm : searchMatchup opp.data text with
    | none => rw [hsm] at hmap; cases hmap
    | some mrec =>
      rw [hsm] at hmap
      injection hmap with hmap
      rw [← hmap]
      exact hopp

/-- Decks outside `pool` never get an inner key list in the matrix. -/
def UntouchedOutside (pool : List String) (m : MMatrix) : Prop :=
  ∀ X : String, X ∉ pool → m.inner X = []

theorem untouched_addEvent (pool : List String) (m : MMatrix) (deck opp : String)
    (hd : deck ∈ pool) (ho : opp ∈ pool) (hm : UntouchedOutside pool m)
    (w l t : Nat) : UntouchedOutside pool (addEvent m deck opp w l t) := by
  intro X hX
  have hXd : ¬ X = deck := fun h => hX (h ▸ hd)
  have hXo : ¬ X = opp := fun h => hX (h ▸ ho)
  simp only [addEvent, addDir]
  rw [if_neg hXo, if_neg hXd]
  exact hm X hX

theorem untouched_accumPage (pool : List String) (deck : String) (hd : deck ∈ pool)
    (ms : List (String × MatchupRecord)) (hms : ∀ p ∈ ms, p.1 ∈ pool) :
    ∀ m : MMatrix, UntouchedOutside pool m →
      UntouchedOutside pool (accumPage m deck ms) := by
  induction ms with
  | nil => intro m hm; exact hm
  | cons p ps ih =>
    intro m hm
    exact ih (fun q hq => hms q (List.mem_cons_of_mem p hq)) _
      (untouched_addEvent pool m deck p.1 hd
        (hms p (List.mem_cons_self p ps)) hm _ _ _)

theorem untouched_processUrl (pool : List String)
    (fetch : String → Option (List Char)) (deck : String) (hd : deck ∈ pool)
    (m : MMatrix) (hm : UntouchedOutside pool m) (url : String) :
    UntouchedOutside pool (processUrl pool fetch deck m url) := by
  unfold processUrl
  cases fetch (normalizeMatchupUrl url) with
  | none => exact hm
  | some text =>
    exact untouched_accumPage pool deck hd _
      (fun p hp => mem_extract_matchups text deck pool p hp) m hm

theorem untouched_processUrls (pool : List String)
    (fetch : String → Option (List Char)) (deck : String) (hd : deck ∈ pool)
    (urls : List String) :
    ∀ m : MMatrix, UntouchedOutside pool m →
      UntouchedOutside pool (processUrls pool fetch deck m urls) := by
  induction urls with
  | nil => intro m hm; exact hm
  | cons u us ih =>
    intro m hm
    exact ih _ (untouched_processUrl pool fetch deck hd m hm u)

theorem untouched_buildMatchups (pool : List String) (urlsOf : String → List String)
    (fetch : String → Option (List Char)) :
    UntouchedOutside pool (buildMatchups pool urlsOf fetch) := by
  unfold buildMatchups
  have key : ∀ (decks : List String), (∀ d ∈ decks, d ∈ pool) →
      ∀ m : MMatrix, UntouchedOutside pool m →
      UntouchedOutside pool
        (decks.foldl (fun m deck => processUrls pool fetch deck m (urlsOf deck)) m) := by
    intro decks
    induction decks with
    | nil => intro _ m hm; exact hm
    | cons d ds ih =>
      intro hsub m hm
      exact ih (fun x hx => hsub x (List.mem_cons_of_mem d hx)) _
        (untouched_processUrls pool fetch d (hsub d (List.mem_cons_self d ds))
          (urlsOf d) m hm)
  exact key pool (fun d hd => hd) emptyMatrix (fun X _ => rfl)

theorem matchupScore_of_inner_nil (m : MMatrix) (w : String → ℚ) (deck : String)
    (h : m.inner deck = []) : matchupScore m w deck = 0 := by
  unfold matchupScore
  rw [h]
  rfl

theorem metaWeightOf_outside (rows : List DeckRow) (pool : List String) (d : String)
    (h : d ∉ pool) : metaWeightOf rows pool d = 0 := by
  unfold metaWeightOf
  rw [if_neg (fun hc => h hc.1)]

theorem processUrls_congr (pool : List String) (deck : String)
    (fetch fetch' : String → Option (List Char)) (urls : List String)
    (h : ∀ u ∈ urls, fetch' (normalizeMatchupUrl u) = fetch (normalizeMatchupUrl u)) :
    ∀ m : MMatrix, processUrls pool fetch' deck m urls =
      processUrls pool fetch deck m urls := by
  induction urls with
  | nil => intro m; rfl
  | cons u us ih =>
    intro m
    show processUrls pool fetch' deck (processUrl pool fetch' deck m u) us = _
    have hu : processUrl pool fetch' deck m u = processUrl pool fetch deck m u := by
      unfold processUrl
      rw [h u (List.mem_cons_self u us)]
    rw [hu]
    exact ih (fun v hv => h v (List.mem_cons_of_mem u hv)) _

theorem buildMatchups_congr (pool : List String) (urlsOf : String → List String)
    (fetch fetch' : String → Option (List Char))
    (h : ∀ d ∈ pool, ∀ u ∈ urlsOf d,
        fetch' (normalizeMatchupUrl u) = fetch (normalizeMatchupUrl u)) :
    buildMatchups pool urlsOf fetch' = buildMatchups pool urlsOf fetch := by
  unfold buildMatchups
  have key : ∀ (decks : List String), (∀ d ∈ decks, d ∈ pool) → ∀ m : MMatrix,
      decks.foldl (fun m deck => processUrls pool fetch' deck m (urlsOf deck)) m =
      decks.foldl (fun m deck => processUrls pool fetch deck m (urlsOf deck)) m := by
    intro decks
    induction decks with
    | nil => intro _ m; rfl
    | cons d ds ih =>
      intro hsub m
      show ds.foldl _ (processUrls pool fetch' d m (urlsOf d)) = _
      rw [processUrls_congr pool d fetch fetch' (urlsOf d)
        (h d (hsub d (List.mem_cons_self d ds))) m]
      exact ih (fun x hx => hsub x (List.mem_cons_of_mem d hx)) _
  exact key pool (fun d hd => hd) emptyMatrix

/-- Claim C7: a deck in the output whose name is outside the meta pool has
meta weight `0` as an opponent, matchup score `0`, and a final score equal
to its base score; and the whole run is unchanged by any alternative fetch
oracle that agrees on the pool decks' URLs — no matchup page of an
outside deck is ever consulted. -/
theorem outside_pool_base_only (ts : List TournamentInput) (mp ms : Nat) (β : ℚ)
    (fetch : String → Option (List Char)) (row : DeckRow)
    (hrow : row ∈ (aggregate_tournaments_with_matchups ts mp ms β fetch).1)
    (hout : row.deck ∉ pipelinePool ts mp ms) :
    metaWeightOf (rankedBaseRows ts mp) (pipelinePool ts mp ms) row.deck = 0 ∧
    row.matchup_score = 0 ∧
    row.final_score = row.base_score ∧
    (∀ fetch' : String → Option (List Char),
      (∀ d ∈ pipelinePool ts mp ms, ∀ u ∈ (aggregateAll ts).deckUrls.get d,
          fetch' (normalizeMatchupUrl u) = fetch (normalizeMatchupUrl u)) →
      aggregate_tournaments_with_matchups ts mp ms β fetch' =
        aggregate_tournaments_with_matchups ts mp ms β fetch) := by
  rw [pipeline_fst_eq_sortScored] at hrow
  have h1 : row ∈ scoredRows ts mp ms β fetch :=
    (perm_sortByFinal _).mem_iff.mp hrow
  obtain ⟨r, _hr, hrow_eq⟩ := List.mem_map.mp h1
  have hdeck : row.deck = r.deck := by rw [← hrow_eq]
  rw [hdeck] at hout
  have hzero : matchupScore
      (buildMatchups (pipelinePool ts mp ms)
        (fun d => (aggregateAll ts).deckUrls.get d) fetch)
      (metaWeightOf (rankedBaseRows ts mp) (pipelinePool ts mp ms)) r.deck = 0 :=
    matchupScore_of_inner_nil _ _ _
      (untouched_buildMatchups (pipelinePool ts mp ms) _ fetch r.deck hout)
  refine ⟨?_, ?_, ?_, ?_⟩
  · rw [hdeck]
    exact metaWeightOf_outside _ _ _ hout
  · rw [← hrow_eq]
    exact hzero
  · rw [← hrow_eq]
    show r.base_score + β * matchupScore _ _ r.deck = r.base_score
    rw [hzero, mul_zero, add_zero]
  · intro fetch' hagree
    show (sortByFinal _, _) = (sortByFinal _, _)
    rw [buildMatchups_congr (pipelinePool ts mp ms)
      (fun d => (aggregateAll ts).deckUrls.get d) fetch fetch' hagree]

theorem outside_pool_base_only_witness :
    metaWeightOf
        (rankedBaseRows [⟨("25 Alpha Deck 60.0% 6 - 2 - 0 75.0%" ++
          " 22 Beta Deck 40.0% 4 - 4 - 0 50.0%").data, [], [], []⟩] 20)
        (pipelinePool [⟨("25 Alpha Deck 60.0% 6 - 2 - 0 75.0%" ++
          " 22 Beta Deck 40.0% 4 - 4 - 0 50.0%").data, [], [], []⟩] 20 1)
        (⟨"Beta Deck", 22, 50, 0, none, none, 50, 0, 50⟩ : DeckRow).deck = 0 ∧
    (⟨"Beta Deck", 22, 50, 0, none, none, 50, 0, 50⟩ : DeckRow).matchup_score = 0 := by
  have h := outside_pool_base_only
    [⟨("25 Alpha Deck 60.0% 6 - 2 - 0 75.0%" ++
      " 22 Beta Deck 40.0% 4 - 4 - 0 50.0%").data, [], [], []⟩] 20 1 (1/2)
    (fun _ => none) ⟨"Beta Deck", 22, 50, 0, none, none, 50, 0, 50⟩
    (of_decide_eq_true (by with_unfolding_all rfl))
    (of_decide_eq_true (by with_unfolding_all rfl))
  exact ⟨h.1, h.2.1⟩

/-! ### Aggregation is additive, hence order-independent (claim C4) -/

/-- Componentwise sum of overall buckets. -/
def addO (a b : OStats) : OStats :=
  ⟨a.wins + b.wins, a.losses + b.losses, a.ties + b.ties, a.players + b.players⟩

/-- Componentwise sum of conversion buckets. -/
def addC (a b : CStats) : CStats := ⟨a.day1 + b.day1, a.day2 + b.day2⟩

/-- The total contribution of a record list to one deck's overall bucket. -/
def oStatsSum (rs : List SummaryRecord) (d : String) : OStats :=
  ⟨((rs.filter (fun r => r.deck = d)).map (·.wins)).sum,
   ((rs.filter (fun r => r.deck = d)).map (·.losses)).sum,
   ((rs.filter (fun r => r.deck = d)).map (·.ties)).sum,
   ((rs.filter (fun r => r.deck = d)).map (·.players)).sum⟩

/-- The total contribution of a conversion record list to one deck. -/
def cStatsSum (rs : List ConversionRecord) (d : String) : CStats :=
  ⟨((rs.filter (fun r => r.deck = d)).map (·.day1_players)).sum,
   ((rs.filter (fun r => r.deck = d)).map (·.day2_players)).sum⟩

/-- One tournament's contribution to a deck's overall bucket. -/
def oContrib (t : TournamentInput) (d : String) : OStats :=
  oStatsSum (extract_overall_or_day t.overallText) d

/-- One tournament's contribution to a deck's day-2 bucket. -/
def dContrib (t : TournamentInput) (d : String) : OStats :=
  oStatsSum (extract_overall_or_day t.day2Text) d

/-- One tournament's contribution to a deck's conversion bucket. -/
def cContrib (t : TournamentInput) (d : String) : CStats :=
  cStatsSum (extract_conversion t.convText) d

theorem applyOverall_overall (t : TournamentInput) (s : AggState) (r : SummaryRecord) :
    (applyOverall t s r).overall = s.overall.upd r.deck (fun o =>
      ⟨o.wins + r.wins, o.losses + r.losses, o.ties + r.ties, o.players + r.players⟩) := by
  unfold applyOverall
  split <;> rfl

theorem applyOverall_day2 (t : TournamentInput) (s : AggState) (r : SummaryRecord) :
    (applyOverall t s r).day2 = s.day2 := by
  unfold applyOverall
  split <;> rfl

theorem applyOverall_conv (t : TournamentInput) (s : AggState) (r : SummaryRecord) :
    (applyOverall t s r).conv = s.conv := by
  unfold applyOverall
  split <;> rfl

theorem foldl_applyOverall_get (t : TournamentInput) (rs : List SummaryRecord) :
    ∀ (s : AggState) (d : String),
      ((rs.foldl (applyOverall t) s).overall.get d) =
        addO (s.overall.get d) (oStatsSum rs d) := by
  induction rs with
  | nil =>
    intro s d
    rfl
  | cons r rs ih =>
    intro s d
    rw [List.foldl_cons, ih (applyOverall t s r) d]
    have hget : ((applyOverall t s r).overall.get d) =
        if d = r.deck then
          ⟨(s.overall.get d).wins + r.wins, (s.overall.get d).losses + r.losses,
           (s.overall.get d).ties + r.ties, (s.overall.get d).players + r.players⟩
        else s.overall.get d := by
      rw [applyOverall_overall]
      show (if d = r.deck then _ else _) = _
      by_cases hd : d = r.deck
      · rw [if_pos hd, if_pos hd, hd]
      · rw [if_neg hd, if_neg hd]
    rw [hget]
    by_cases hd : d = r.deck
    · rw [if_pos hd]
      have hp : r.deck = d := hd.symm
      simp [oStatsSum, addO, List.filter_cons, hp, OStats.mk.injEq] <;> omega
    · rw [if_neg hd]
      have hne : ¬ (r.deck = d) := fun h => hd h.symm
      simp [oStatsSum, addO, List.filter_cons, hne, OStats.mk.injEq] <;> omega

theorem applyDay2_day2 (s : AggState) (r : SummaryRecord) :
    (applyDay2 s r).day2 = s.day2.upd r.deck (fun o =>
      ⟨o.wins + r.wins, o.losses + r.losses, o.ties + r.ties, o.players + r.players⟩) := rfl

theorem foldl_applyDay2_get (rs : List SummaryRecord) :
    ∀ (s : AggState) (d : String),
      ((rs.foldl applyDay2 s).day2.get d) = addO (s.day2.get d) (oStatsSum rs d) := by
  induction rs with
  | nil =>
    intro s d
    rfl
  | cons r rs ih =>
    intro s d
    rw [List.foldl_cons, ih (applyDay2 s r) d]
    have hget : ((applyDay2 s r).day2.get d) =
        if d = r.deck then
          ⟨(s.day2.get d).wins + r.wins, (s.day2.get d).losses + r.losses,
           (s.day2.get d).ties + r.ties, (s.day2.get d).players + r.players⟩
        else s.day2.get d := by
      rw [applyDay2_day2]
      show (if d = r.deck then _ else _) = _
      by_cases hd : d = r.deck
      · rw [if_pos hd, if_pos hd, hd]
      · rw [if_neg hd, if_neg hd]
    rw [hget]
    by_cases hd : d = r.deck
    · rw [if_pos hd]
      have hp : r.deck = d := hd.symm
      simp [oStatsSum, addO, List.filter_cons, hp, OStats.mk.injEq] <;> omega
    · rw [if_neg hd]
      have hne : ¬ (r.deck = d) := fun h => hd h.symm
      simp [oStatsSum, addO, List.filter_cons, hne, OStats.mk.injEq] <;> omega

theorem foldl_applyConv_get (rs : List ConversionRecord) :
    ∀ (s : AggState) (d : String),
      ((rs.foldl applyConv s).conv.get d) = addC (s.conv.get d) (cStatsSum rs d) := by
  induction rs with
  | nil =>
    intro s d
    rfl
  | cons r rs ih =>
    intro s d
    rw [List.foldl_cons, ih (applyConv s r) d]
    have hget : ((applyConv s r).conv.get d) =
        if d = r.deck then
          ⟨(s.conv.get d).day1 + r.day1_players, (s.conv.get d).day2 + r.day2_players⟩
        else s.conv.get d := by
      show (if d = r.deck then _ else _) = _
      by_cases hd : d = r.deck
      · rw [if_pos hd, if_pos hd, hd]
      · rw [if_neg hd, if_neg hd]
    rw [hget]
    by_cases hd : d = r.deck
    · rw [if_pos hd]
      have hp : r.deck = d := hd.symm
      simp [cStatsSum, addC, List.filter_cons, hp, CStats.mk.injEq] <;> omega
    · rw [if_neg hd]
      have hne : ¬ (r.deck = d) := fun h => hd h.symm
      simp [cStatsSum, addC, List.filter_cons, hne, CStats.mk.injEq] <;> omega

theorem foldl_applyOverall_day2 (t : TournamentInput) (rs : List SummaryRecord) :
    ∀ s : AggState, (rs.foldl (applyOverall t) s).day2 = s.day2 := by
  induction rs with
  | nil => intro s; rfl
  | cons r rs ih =>
    intro s
    rw [List.foldl_cons, ih (applyOverall t s r), applyOverall_day2]

theorem foldl_applyOverall_conv (t : TournamentInput) (rs : List SummaryRecord) :
    ∀ s : AggState, (rs.foldl (applyOverall t) s).conv = s.conv := by
  induction rs with
  | nil => intro s; rfl
  | cons r rs ih =>
    intro s
    rw [List.foldl_cons, ih (applyOverall t s r), applyOverall_conv]

theorem foldl_applyDay2_overall (rs : List SummaryRecord) :
    ∀ s : AggState, (rs.foldl applyDay2 s).overall = s.overall := by
  induction rs with
  | nil => intro s; rfl
  | cons r rs ih =>
    intro s
    rw [List.foldl_cons, ih (applyDay2 s r)]
    rfl

theorem foldl_applyDay2_conv (rs : List SummaryRecord) :
    ∀ s : AggState, (rs.foldl applyDay2 s).conv = s.conv := by
  induction rs with
  | nil => intro s; rfl
  | cons r rs ih =>
    intro s
    rw [List.foldl_cons, ih (applyDay2 s r)]
    rfl

theorem foldl_applyConv_overall (rs : List ConversionRecord) :
    ∀ s : AggState, (rs.foldl applyConv s).overall = s.overall := by
  induction rs with
  | nil => intro s; rfl
  | cons r rs ih =>
    intro s
    rw [List.foldl_cons, ih (applyConv s r)]
    rfl

theorem foldl_applyConv_day2 (rs : List ConversionRecord) :
    ∀ s : AggState, (rs.foldl applyConv s).day2 = s.day2 := by
  induction rs with
  | nil => intro s; rfl
  | cons r rs ih =>
    intro s
    rw [List.foldl_cons, ih (applyConv s r)]
    rfl

theorem processT_overall_get (s : AggState) (t : TournamentInput) (d : String) :
    ((processTournament s t).overall.get d) = addO (s.overall.get d) (oContrib t d) := by
  show (((extract_conversion t.convText).foldl applyConv
      ((extract_overall_or_day t.day2Text).foldl applyDay2
        ((extract_overall_or_day t.overallText).foldl (applyOverall t) s))).overall.get d) = _
  rw [foldl_applyConv_overall, foldl_applyDay2_overall]
  exact foldl_applyOverall_get t _ s d

theorem processT_day2_get (s : AggState) (t : TournamentInput) (d : String) :
    ((processTournament s t).day2.get d) = addO (s.day2.get d) (dContrib t d) := by
  show (((extract_conversion t.convText).foldl applyConv
      ((extract_overall_or_day t.day2Text).foldl applyDay2
        ((extract_overall_or_day t.overallText).foldl (applyOverall t) s))).day2.get d) = _
  rw [foldl_applyConv_day2, foldl_applyDay2_get, foldl_applyOverall_day2]
  rfl

theorem processT_conv_get (s : AggState) (t : TournamentInput) (d : String) :
    ((processTournament s t).conv.get d) = addC (s.conv.get d) (cContrib t d) := by
  show (((extract_conversion t.convText).foldl applyConv
      ((extract_overall_or_day t.day2Text).foldl applyDay2
        ((extract_overall_or_day t.overallText).foldl (applyOverall t) s))).conv.get d) = _
  rw [foldl_applyConv_get, foldl_applyDay2_conv, foldl_applyOverall_conv]
  rfl

theorem aggFrom_overall_get (ts : List TournamentInput) :
    ∀ (s : AggState) (d : String),
      ((aggFrom s ts).overall.get d) =
        addO (s.overall.get d)
          ⟨(ts.map (fun t => (oContrib t d).wins)).sum,
           (ts.map (fun t => (oContrib t d).losses)).sum,
           (ts.map (fun t => (oContrib t d).ties)).sum,
           (ts.map (fun t => (oContrib t d).players)).sum⟩ := by
  induction ts with
  | nil =>
    intro s d
    rfl
  | cons t ts ih =>
    intro s d
    show ((aggFrom (processTournament s t) ts).overall.get d) = _
    rw [ih (processTournament s t) d, processT_overall_get]
    simp only [addO, List.map_cons, List.sum_cons, OStats.mk.injEq]
    omega

theorem aggFrom_day2_get (ts : List TournamentInput) :
    ∀ (s : AggState) (d : String),
      ((aggFrom s ts).day2.get d) =
        addO (s.day2.get d)
          ⟨(ts.map (fun t => (dContrib t d).wins)).sum,
           (ts.map (fun t => (dContrib t d).losses)).sum,
           (ts.map (fun t => (dContrib t d).ties)).sum,
           (ts.map (fun t => (dContrib t d).players)).sum⟩ := by
  induction ts with
  | nil =>
    intro s d
    rfl
  | cons t ts ih =>
    intro s d
    show ((aggFrom (processTournament s t) ts).day2.get d) = _
    rw [ih (processTournament s t) d, processT_day2_get]
    simp only [addO, List.map_cons, List.sum_cons, OStats.mk.injEq]
    omega

theorem aggFrom_conv_get (ts : List TournamentInput) :
    ∀ (s : AggState) (d : String),
      ((aggFrom s ts).conv.get d) =
        addC (s.conv.get d)
          ⟨(ts.map (fun t => (cContrib t d).day1)).sum,
           (ts.map (fun t => (cContrib t d).day2)).sum⟩ := by
  induction ts with
  | nil =>
    intro s d
    rfl
  | cons t ts ih =>
    intro s d
    show ((aggFrom (processTournament s t) ts).conv.get d) = _
    rw [ih (processTournament s t) d, processT_conv_get]
    simp only [addC, List.map_cons, List.sum_cons, CStats.mk.injEq]
    omega

/-- Claim C4: the per-deck accumulated statistics (overall, day-2 and
conversion buckets) are invariant under any permutation of the tournament
list, and aggregation of a concatenation equals aggregating the first batch
and then folding the second batch into the result — so any batching and any
order give identical `AggregatedDeckStats`. -/
theorem aggregation_order_independent (ts1 ts2 : List TournamentInput)
    (h : List.Perm ts1 ts2) (batch1 batch2 : List TournamentInput) :
    (∀ d : String,
      ((aggregateAll ts1).overall.get d) = ((aggregateAll ts2).overall.get d) ∧
      ((aggregateAll ts1).day2.get d) = ((aggregateAll ts2).day2.get d) ∧
      ((aggregateAll ts1).conv.get d) = ((aggregateAll ts2).conv.get d)) ∧
    aggregateAll (batch1 ++ batch2) = aggFrom (aggregateAll batch1) batch2 := by
  constructor
  · intro d
    refine ⟨?_, ?_, ?_⟩
    · show ((aggFrom initAgg ts1).overall.get d) = ((aggFrom initAgg ts2).overall.get d)
      rw [aggFrom_overall_get ts1 initAgg d, aggFrom_overall_get ts2 initAgg d,
        (h.map (fun t => (oContrib t d).wins)).sum_eq,
        (h.map (fun t => (oContrib t d).losses)).sum_eq,
        (h.map (fun t => (oContrib t d).ties)).sum_eq,
        (h.map (fun t => (oContrib t d).players)).sum_eq]
    · show ((aggFrom initAgg ts1).day2.get d) = ((aggFrom initAgg ts2).day2.get d)
      rw [aggFrom_day2_get ts1 initAgg d, aggFrom_day2_get ts2 initAgg d,
        (h.map (fun t => (dContrib t d).wins)).sum_eq,
        (h.map (fun t => (dContrib t d).losses)).sum_eq,
        (h.map (fun t => (dContrib t d).ties)).sum_eq,
        (h.map (fun t => (dContrib t d).players)).sum_eq]
    · show ((aggFrom initAgg ts1).conv.get d) = ((aggFrom initAgg ts2).conv.get d)
      rw [aggFrom_conv_get ts1 initAgg d, aggFrom_conv_get ts2 initAgg d,
        (h.map (fun t => (cContrib t d).day1)).sum_eq,
        (h.map (fun t => (cContrib t d).day2)).sum_eq]
  · show aggFrom initAgg (batch1 ++ batch2) = _
    unfold aggFrom aggregateAll aggFrom
    rw [List.foldl_append]

theorem aggregation_order_independent_witness :
    ((aggregateAll
        [⟨"25 Alpha Deck 60.0% 6 - 2 - 0 75.0%".data, [], [], []⟩,
         ⟨"9 Alpha Deck 10.0% 3 - 3 - 0 50.0%".data, [], [], []⟩]).overall.get
        "Alpha Deck" =
      (aggregateAll
        [⟨"9 Alpha Deck 10.0% 3 - 3 - 0 50.0%".data, [], [], []⟩,
         ⟨"25 Alpha Deck 60.0% 6 - 2 - 0 75.0%".data, [], [], []⟩]).overall.get
        "Alpha Deck") ∧
    aggregateAll
        ([⟨"25 Alpha Deck 60.0% 6 - 2 - 0 75.0%".data, [], [], []⟩] ++
         [⟨"9 Alpha Deck 10.0% 3 - 3 - 0 50.0%".data, [], [], []⟩]) =
      aggFrom (aggregateAll [⟨"25 Alpha Deck 60.0% 6 - 2 - 0 75.0%".data, [], [], []⟩])
        [⟨"9 Alpha Deck 10.0% 3 - 3 - 0 50.0%".data, [], [], []⟩] := by
  have h := aggregation_order_independent
    [⟨"25 Alpha Deck 60.0% 6 - 2 - 0 75.0%".data, [], [], []⟩,
     ⟨"9 Alpha Deck 10.0% 3 - 3 - 0 50.0%".data, [], [], []⟩]
    [⟨"9 Alpha Deck 10.0% 3 - 3 - 0 50.0%".data, [], [], []⟩,
     ⟨"25 Alpha Deck 60.0% 6 - 2 - 0 75.0%".data, [], [], []⟩]
    (List.Perm.swap _ _ _)
    [⟨"25 Alpha Deck 60.0% 6 - 2 - 0 75.0%".data, [], [], []⟩]
    [⟨"9 Alpha Deck 10.0% 3 - 3 - 0 50.0%".data, [], [], []⟩]
  exact ⟨(h.1 "Alpha Deck").1, h.2⟩

/-! ### List and character lemmas for the extractor proofs -/

theorem takeWhile_append_all (p : Char → Bool) (a : List Char) (c : Char)
    (r : List Char) (ha : ∀ x ∈ a, p x = true) (hc : p c = false) :
    (a ++ c :: r).takeWhile p = a := by
  induction a with
  | nil => simp [List.takeWhile_cons, hc]
  | cons x a' ih =>
    have hx : p x = true := ha x (List.mem_cons_self x a')
    simp only [List.cons_append, List.takeWhile_cons, hx, if_true]
    rw [ih (fun y hy => ha y (List.mem_cons_of_mem x hy))]

theorem dropWhile_append_all (p : Char → Bool) (a : List Char) (c : Char)
    (r : List Char) (ha : ∀ x ∈ a, p x = true) (hc : p c = false) :
    (a ++ c :: r).dropWhile p = c :: r := by
  induction a with
  | nil => simp [List.dropWhile_cons, hc]
  | cons x a' ih =>
    have hx : p x = true := ha x (List.mem_cons_self x a')
    simp only [List.cons_append, List.dropWhile_cons, hx, if_true]
    exact ih (fun y hy => ha y (List.mem_cons_of_mem x hy))

theorem takeWhile_all_eq (p : Char → Bool) (l : List Char)
    (h : ∀ x ∈ l, p x = true) : l.takeWhile p = l := by
  induction l with
  | nil => rfl
  | cons x l' ih =>
    simp only [List.takeWhile_cons, h x (List.mem_cons_self x l'), if_true]
    rw [ih (fun y hy => h y (List.mem_cons_of_mem x hy))]

theorem dropWhile_all_eq (p : Char → Bool) (l : List Char)
    (h : ∀ x ∈ l, p x = true) : l.dropWhile p = [] := by
  induction l with
  | nil => rfl
  | cons x l' ih =>
    simp only [List.dropWhile_cons, h x (List.mem_cons_self x l'), if_true]
    exact ih (fun y hy => h y (List.mem_cons_of_mem x hy))

theorem dropWhile_append_stuck (p : Char → Bool) (a b : List Char)
    (h : a.dropWhile p ≠ []) :
    (a ++ b).dropWhile p = a.dropWhile p ++ b := by
  induction a with
  | nil => exact absurd rfl h
  | cons x a' ih =>
    by_cases hx : p x = true
    · simp only [List.cons_append, List.dropWhile_cons, hx, if_true]
      apply ih
      simpa [List.dropWhile_cons, hx] using h
    · have hx' : p x = false := by
        cases hpx : p x
        · rfl
        · exact absurd hpx hx
      simp [List.dropWhile_cons, hx']

theorem takeWhile_append_stuck (p : Char → Bool) (a b : List Char)
    (h : a.dropWhile p ≠ []) :
    (a ++ b).takeWhile p = a.takeWhile p := by
  induction a with
  | nil => exact absurd rfl h
  | cons x a' ih =>
    by_cases hx : p x = true
    · simp only [List.cons_append, List.takeWhile_cons, hx, if_true]
      rw [ih (by simpa [List.dropWhile_cons, hx] using h)]
    · have hx' : p x = false := by
        cases hpx : p x
        · rfl
        · exact absurd hpx hx
      simp [List.takeWhile_cons, hx']

theorem dropWhile_concat_stop (p : Char → Bool) (a : List Char) (c : Char)
    (hc : p c = false) : ∃ w : List Char, (a ++ [c]).dropWhile p = w ++ [c] := by
  induction a with
  | nil => exact ⟨[], by simp [List.dropWhile_cons, hc]⟩
  | cons x a' ih =>
    by_cases hx : p x = true
    · obtain ⟨w, hw⟩ := ih
      exact ⟨w, by simp only [List.cons_append, List.dropWhile_cons, hx, if_true]; exact hw⟩
    · have hx' : p x = false := by
        cases hpx : p x
        · rfl
        · exact absurd hpx hx
      exact ⟨x :: a', by simp [List.dropWhile_cons, hx']⟩

theorem ws_cases (c : Char) (h : isWs c = true) :
    c = ' ' ∨ c = '\t' ∨ c = '\n' ∨ c = '\r' ∨ c = '\x0b' ∨ c = '\x0c' := by
  simp [isWs] at h
  tauto

theorem digit_not_ws (c : Char) (h : c.isDigit = true) : isWs c = false := by
  cases hw : isWs c
  · rfl
  · rcases ws_cases c hw with rfl | rfl | rfl | rfl | rfl | rfl <;>
      exact absurd h (by decide)

theorem upperDigit_not_ws (c : Char) (h : isUpperDigit c = true) : isWs c = false := by
  cases hw : isWs c
  · rfl
  · rcases ws_cases c hw with rfl | rfl | rfl | rfl | rfl | rfl <;>
      exact absurd h (by decide)

theorem digit_ne_pct (c : Char) (h : c.isDigit = true) : ¬ c = '%' := by
  intro he
  subst he
  exact absurd h (by decide)

theorem digit_not_sep (c : Char) (h : c.isDigit = true) :
    (c = '.' || c = ',') = false := by
  cases hs : (c = '.' || c = ',')
  · rfl
  · rcases Bool.or_eq_true_iff.mp hs with h1 | h1
    · have : c = '.' := by simpa using h1
      subst this
      exact absurd h (by decide)
    · have : c = ',' := by simpa using h1
      subst this
      exact absurd h (by decide)

/-- The shape of the `\d+[.,]?\d*` group: digits, optionally a decimal
separator and more digits. -/
def NumTok (s : List Char) : Prop :=
  (s ≠ [] ∧ ∀ x ∈ s, x.isDigit = true) ∨
  (∃ d1 c d2, s = d1 ++ c :: d2 ∧ d1 ≠ [] ∧ (∀ x ∈ d1, x.isDigit = true) ∧
    (c = '.' ∨ c = ',') ∧ (∀ x ∈ d2, x.isDigit = true))

theorem numTok_head (s : List Char) (hs : NumTok s) :
    ∃ s0 s', s = s0 :: s' ∧ s0.isDigit = true := by
  rcases hs with ⟨hne, hall⟩ | ⟨d1, c, d2, heq, hne, hall, _, _⟩
  · cases s with
    | nil => exact absurd rfl hne
    | cons s0 s' => exact ⟨s0, s', rfl, hall s0 (List.mem_cons_self s0 s')⟩
  · cases d1 with
    | nil => exact absurd rfl hne
    | cons s0 s' =>
      exact ⟨s0, s' ++ c :: d2, by simpa using heq,
        hall s0 (List.mem_cons_self s0 s')⟩

theorem digits1_spec (a : List Char) (c : Char) (r : List Char) (ha : a ≠ [])
    (had : ∀ x ∈ a, x.isDigit = true) (hc : c.isDigit = false) :
    digits1 (a ++ c :: r) = some (a, c :: r) := by
  unfold digits1
  rw [takeWhile_append_all _ a c r had hc, dropWhile_append_all _ a c r had hc]
  have hae : a.isEmpty = false := by
    cases a
    · exact absurd rfl ha
    · rfl
  show (if a.isEmpty = true then none else some (a, c :: r)) = some (a, c :: r)
  rw [hae]
  rfl

theorem ws1_single (x : Char) (r : List Char) (hx : isWs x = false) :
    ws1 (' ' :: x :: r) = some (x :: r) := by
  unfold ws1
  have h1 : isWs ' ' = true := rfl
  rw [show (' ' :: x :: r).takeWhile isWs = [' '] from by
    simp [List.takeWhile_cons, h1, hx]]
  rw [show (' ' :: x :: r).dropWhile isWs = x :: r from by
    simp [List.dropWhile_cons, h1, hx]]
  rfl

theorem ws0_cons_ws (r : List Char) : ws0 (' ' :: r) = ws0 r := by
  have h1 : isWs ' ' = true := rfl
  simp [ws0, List.dropWhile_cons, h1]

theorem ws0_cons_not (c : Char) (r : List Char) (hc : isWs c = false) :
    ws0 (c :: r) = c :: r := by
  simp [ws0, List.dropWhile_cons, hc]

theorem expectChar_hit (c : Char) (r : List Char) : expectChar c (c :: r) = some r := by
  simp [expectChar]

theorem numPct_complete (s : List Char) (r : List Char) (hs : NumTok s) :
    numPct (s ++ '%' :: r) = some (s, r) := by
  rcases hs with ⟨hne, hall⟩ | ⟨d1, c, d2, heq, hne, hd1, hsep, hd2⟩
  · unfold numPct
    rw [digits1_spec s '%' r hne hall (by decide)]
    rfl
  · subst heq
    have hcd : c.isDigit = false := by
      rcases hsep with rfl | rfl <;> decide
    unfold numPct
    rw [show d1 ++ c :: d2 ++ '%' :: r = d1 ++ c :: (d2 ++ '%' :: r) from by simp]
    rw [digits1_spec d1 c (d2 ++ '%' :: r) hne hd1 hcd]
    have hsepb : (c = '.' || c = ',') = true := by
      rcases hsep with rfl | rfl <;> rfl
    simp only [hsepb, if_true]
    rw [takeWhile_append_all _ d2 '%' r hd2 (by decide),
      dropWhile_append_all _ d2 '%' r hd2 (by decide)]
    rfl

theorem ws1_cons (cs : List Char) (h : ∃ c0 cr, cs = c0 :: cr ∧ isWs c0 = false) :
    ws1 (' ' :: cs) = some cs := by
  obtain ⟨c0, cr, rfl, hc0⟩ := h
  exact ws1_single c0 cr hc0

theorem takeWhile_cons_nil (p : Char → Bool) (c : Char) (l : List Char)
    (h : (c :: l).takeWhile p = []) : p c = false := by
  cases hc : p c
  · rfl
  · rw [List.takeWhile_cons, hc] at h
    cases h

theorem dropWhile_head_false (p : Char → Bool) (l : List Char) (c : Char)
    (r : List Char) (h : l.dropWhile p = c :: r) : p c = false := by
  induction l with
  | nil => cases h
  | cons x l' ih =>
    by_cases hx : p x = true
    · rw [List.dropWhile_cons, if_pos hx] at h
      exact ih h
    · have hx' : p x = false := by
        cases hpx : p x
        · rfl
        · exact absurd hpx hx
      rw [List.dropWhile_cons, if_neg (by rw [hx']; exact Bool.false_ne_true)] at h
      injection h with h1 _
      rw [← h1]
      exact hx'

theorem dropWhile_append_all2 (p : Char → Bool) (a b : List Char)
    (h : ∀ x ∈ a, p x = true) : (a ++ b).dropWhile p = b.dropWhile p := by
  induction a with
  | nil => rfl
  | cons x a' ih =>
    simp only [List.cons_append, List.dropWhile_cons,
      h x (List.mem_cons_self x a'), if_true]
    exact ih (fun y hy => h y (List.mem_cons_of_mem x hy))

theorem dropWhile_nil_all (p : Char → Bool) (l : List Char)
    (h : l.dropWhile p = []) : ∀ x ∈ l, p x = true := by
  induction l with
  | nil => intro x hx; cases hx
  | cons y l' ih =>
    intro x hx
    by_cases hy : p y = true
    · rw [List.dropWhile_cons, if_pos hy] at h
      rcases List.mem_cons.mp hx with rfl | hx'
      · exact hy
      · exact ih h x hx'
    · have hy' : p y = false := by
        cases hpy : p y
        · rfl
        · exact absurd hpy hy
      rw [List.dropWhile_cons, if_neg (by rw [hy']; exact Bool.false_ne_true)] at h
      cases h

/-- The numeric-then-`%` group can never match starting inside a deck name:
whatever run of digits and at most one separator it finds ends at a
character of the name (never `%`) or at the following space. -/
theorem numPct_fail_inside (M : List Char) (r' : List Char)
    (hM : ∀ x ∈ M, ¬ x = '%') :
    numPct (M ++ ' ' :: r') = none := by
  cases hM0 : M with
  | nil =>
    unfold numPct digits1
    simp [List.takeWhile_cons]
  | cons c M' =>
    rw [← hM0]
    have hMne : M ≠ [] := by rw [hM0]; exact List.cons_ne_nil c M'
    by_cases hcd : c.isDigit = true
    · cases he0 : M.dropWhile Char.isDigit with
      | nil =>
        -- M is all digits: the next character is the space
        have hald : ∀ x ∈ M, Char.isDigit x = true := dropWhile_nil_all _ M he0
        unfold numPct
        rw [digits1_spec M ' ' r' hMne hald (by decide)]
        rfl
      | cons e M3 =>
        -- the run stops at a non-digit character `e` of M
        have hstuck : M.dropWhile Char.isDigit ≠ [] := by rw [he0]; simp
        have hed : Char.isDigit e = false := dropWhile_head_false _ M e M3 he0
        have heM : e ∈ M := by
          have := List.dropWhile_subset (l := M) Char.isDigit
          exact this (by rw [he0]; exact List.mem_cons_self e M3)
        have hd1ne : M.takeWhile Char.isDigit ≠ [] := by
          rw [hM0, List.takeWhile_cons]
          simp [hcd]
        have hdig1 : digits1 (M ++ ' ' :: r') =
            some (M.takeWhile Char.isDigit, e :: (M3 ++ ' ' :: r')) := by
          unfold digits1
          rw [takeWhile_append_stuck _ M _ hstuck, dropWhile_append_stuck _ M _ hstuck]
          have hie : (M.takeWhile Char.isDigit).isEmpty = false := by
            cases hq : M.takeWhile Char.isDigit
            · exact absurd hq hd1ne
            · rfl
          rw [he0]
          show (if (M.takeWhile Char.isDigit).isEmpty = true then none
            else some (M.takeWhile Char.isDigit, (e :: M3) ++ ' ' :: r')) = _
          rw [hie]
          simp
        unfold numPct
        rw [hdig1]
        dsimp only
        have heP : ¬ e = '%' := hM e heM
        by_cases hsep : (e = '.' || e = ',') = true
        · -- separator: the digits after it still end at a name character
          -- or the space, never at `%`
          rw [if_pos hsep]
          cases hf0 : M3.dropWhile Char.isDigit with
          | nil =>
            have hall3 : ∀ x ∈ M3, Char.isDigit x = true := dropWhile_nil_all _ M3 hf0
            have hdw : (M3 ++ ' ' :: r').dropWhile Char.isDigit = ' ' :: r' := by
              rw [dropWhile_append_all2 _ M3 _ hall3, List.dropWhile_cons]
              simp
            rw [hdw]
            rw [show expectChar '%' (' ' :: r') = none from by simp [expectChar]]
          | cons f M4 =>
            have hstuck3 : M3.dropWhile Char.isDigit ≠ [] := by rw [hf0]; simp
            have hfM : f ∈ M := by
              have hsub : f ∈ M3 := by
                have := List.dropWhile_subset (l := M3) Char.isDigit
                exact this (by rw [hf0]; exact List.mem_cons_self f M4)
              have hin : f ∈ e :: M3 := List.mem_cons_of_mem e hsub
              rw [← he0] at hin
              exact List.dropWhile_subset _ hin
            have hfP : ¬ f = '%' := hM f hfM
            have hdw : (M3 ++ ' ' :: r').dropWhile Char.isDigit =
                f :: (M4 ++ ' ' :: r') := by
              rw [dropWhile_append_stuck _ M3 _ hstuck3, hf0]
              rfl
            rw [hdw]
            rw [show expectChar '%' (f :: (M4 ++ ' ' :: r')) = none from by
              simp [expectChar, hfP]]
        · rw [if_neg hsep, if_neg heP]
    · -- the head of M is not a digit: `\d+` fails immediately
      have hcd' : c.isDigit = false := by
        cases hpc : c.isDigit
        · rfl
        · exact absurd hpc hcd
      unfold numPct digits1
      rw [hM0]
      simp [List.takeWhile_cons, hcd']

/-- The whole post-name pattern fails at every position strictly inside a
deck name: the `\s+` run (if any) stays inside the name, the digits stop at
a name character or at the following space, and the required `%` is never
found. -/
theorem rowTail_fail (m : List Char) (r' : List Char) (hne : m ≠ [])
    (hnp : ∀ x ∈ m, ¬ x = '%') (hx : ∃ x ∈ m, isWs x = false) :
    rowTail (m ++ ' ' :: r') = none := by
  have hm' : m.dropWhile isWs ≠ [] := by
    intro h0
    obtain ⟨x, hxm, hxw⟩ := hx
    rw [dropWhile_nil_all isWs m h0 x hxm] at hxw
    cases hxw
  by_cases hw : m.takeWhile isWs = []
  · -- the head of m is not whitespace: `\s+` fails at once
    obtain ⟨c0, m0, hm0⟩ := List.exists_cons_of_ne_nil hne
    have hc0 : isWs c0 = false :=
      takeWhile_cons_nil isWs c0 m0 (by rw [← hm0]; exact hw)
    have hws : ws1 (m ++ ' ' :: r') = none := by
      unfold ws1
      rw [hm0, List.cons_append,
        show ((c0 :: (m0 ++ ' ' :: r')).takeWhile isWs) = [] from by
          rw [List.takeWhile_cons]
          simp [hc0]]
      rfl
    unfold rowTail
    rw [hws]
    rfl
  · have hws : ws1 (m ++ ' ' :: r') = some (m.dropWhile isWs ++ ' ' :: r') := by
      unfold ws1
      rw [takeWhile_append_stuck _ m _ hm', dropWhile_append_stuck _ m _ hm']
      have hie : (m.takeWhile isWs).isEmpty = false := by
        cases hq : m.takeWhile isWs
        · exact absurd hq hw
        · rfl
      rw [hie]
      rfl
    unfold rowTail
    rw [hws]
    simp only [Option.bind_eq_bind, Option.some_bind]
    rw [numPct_fail_inside (m.dropWhile isWs) r'
      (fun x hx2 => hnp x (List.dropWhile_subset _ hx2))]
    rfl

/-- `ws0` drops nothing when the leading list has a non-whitespace head. -/
theorem ws0_app (a b : List Char) (h : ∃ c0 cr, a = c0 :: cr ∧ isWs c0 = false) :
    ws0 (a ++ b) = a ++ b := by
  obtain ⟨c0, cr, rfl, hc0⟩ := h
  rw [List.cons_append, ws0_cons_not c0 (cr ++ b) hc0]

/-- The post-name pattern succeeds at the end of the name and captures the
five numeric groups of the row. -/
theorem rowTail_complete (S W L T R : List Char) (hS : NumTok S)
    (hW : W ≠ []) (hWd : ∀ x ∈ W, x.isDigit = true)
    (hL : L ≠ []) (hLd : ∀ x ∈ L, x.isDigit = true)
    (hT : T ≠ []) (hTd : ∀ x ∈ T, x.isDigit = true)
    (hR : NumTok R) :
    rowTail (' ' :: (S ++ '%' :: ' ' :: (W ++ ' ' :: '-' :: ' ' ::
        (L ++ ' ' :: '-' :: ' ' :: (T ++ ' ' :: (R ++ ['%'])))))) =
      some (⟨S, W, L, T, R⟩, []) := by
  obtain ⟨s0, S', hSeq, hs0⟩ := numTok_head S hS
  obtain ⟨w0, W', hWeq⟩ := List.exists_cons_of_ne_nil hW
  obtain ⟨l0, L', hLeq⟩ := List.exists_cons_of_ne_nil hL
  obtain ⟨t0, T', hTeq⟩ := List.exists_cons_of_ne_nil hT
  obtain ⟨r0, R', hReq, hr0⟩ := numTok_head R hR
  unfold rowTail
  rw [ws1_cons _ ⟨s0, S' ++ '%' :: ' ' :: (W ++ ' ' :: '-' :: ' ' ::
      (L ++ ' ' :: '-' :: ' ' :: (T ++ ' ' :: (R ++ ['%'])))),
    by rw [hSeq]; simp, digit_not_ws s0 hs0⟩]
  simp only [Option.bind_eq_bind, Option.some_bind]
  rw [numPct_complete S (' ' :: (W ++ ' ' :: '-' :: ' ' ::
    (L ++ ' ' :: '-' :: ' ' :: (T ++ ' ' :: (R ++ ['%']))))) hS]
  simp only [Option.bind_eq_bind, Option.some_bind]
  rw [ws1_cons _ ⟨w0, W' ++ ' ' :: '-' :: ' ' ::
      (L ++ ' ' :: '-' :: ' ' :: (T ++ ' ' :: (R ++ ['%']))),
    by rw [hWeq]; simp,
    digit_not_ws w0 (hWd w0 (by rw [hWeq]; exact List.mem_cons_self w0 W'))⟩]
  simp only [Option.bind_eq_bind, Option.some_bind]
  rw [digits1_spec W ' ' ('-' :: ' ' :: (L ++ ' ' :: '-' :: ' ' ::
    (T ++ ' ' :: (R ++ ['%'])))) hW hWd (by decide)]
  simp only [Option.bind_eq_bind, Option.some_bind]
  rw [ws0_cons_ws, ws0_cons_not '-' _ (by decide), expectChar_hit]
  simp only [Option.bind_eq_bind, Option.some_bind]
  rw [ws0_cons_ws, ws0_app L (' ' :: '-' :: ' ' :: (T ++ ' ' :: (R ++ ['%'])))
    ⟨l0, L', hLeq, digit_not_ws l0 (hLd l0 (by rw [hLeq]; exact List.mem_cons_self l0 L'))⟩]
  rw [digits1_spec L ' ' ('-' :: ' ' :: (T ++ ' ' :: (R ++ ['%']))) hL hLd (by decide)]
  simp only [Option.bind_eq_bind, Option.some_bind]
  rw [ws0_cons_ws, ws0_cons_not '-' _ (by decide), expectChar_hit]
  simp only [Option.bind_eq_bind, Option.some_bind]
  rw [ws0_cons_ws, ws0_app T (' ' :: (R ++ ['%']))
    ⟨t0, T', hTeq, digit_not_ws t0 (hTd t0 (by rw [hTeq]; exact List.mem_cons_self t0 T'))⟩]
  rw [digits1_spec T ' ' (R ++ ['%']) hT hTd (by decide)]
  simp only [Option.bind_eq_bind, Option.some_bind]
  rw [ws1_cons _ ⟨r0, R' ++ ['%'], by rw [hReq]; simp, digit_not_ws r0 hr0⟩]
  simp only [Option.bind_eq_bind, Option.some_bind]
  rw [numPct_complete R [] hR]
  rfl

/-- The lazy name group extends exactly to the end of the name: every
shorter candidate fails the rest of the pattern, and at the end the rest of
the pattern matches. -/
theorem nameLoop_through (rest0 : List Char) (g : RowTail) (rem : List Char)
    (hsucc : rowTail rest0 = some (g, rem)) (hr0 : rest0 ≠ []) :
    ∀ (mid : List Char) (acc : List Char),
      (∀ m1 m2, mid = m1 ++ m2 → m2 ≠ [] → rowTail (m2 ++ rest0) = none) →
      (∀ x ∈ mid, ¬ x = '%') →
      nameLoop (mid ++ rest0) acc = some (acc ++ mid, g, rem) := by
  intro mid
  induction mid with
  | nil =>
    intro acc _ _
    obtain ⟨c, r, hcr⟩ := List.exists_cons_of_ne_nil hr0
    show nameLoop rest0 acc = _
    rw [hcr]
    show nameLoop (c :: r) acc = _
    unfold nameLoop
    rw [← hcr, hsucc]
    simp
  | cons c mid' ih =>
    intro acc hfail hnp
    have h1 : rowTail ((c :: mid') ++ rest0) = none :=
      hfail [] (c :: mid') rfl (List.cons_ne_nil _ _)
    rw [List.cons_append] at h1
    show nameLoop (c :: (mid' ++ rest0)) acc = _
    unfold nameLoop
    rw [h1]
    rw [if_neg (hnp c (List.mem_cons_self c mid'))]
    rw [ih (acc ++ [c])
      (fun m1 m2 heq h2 => hfail (c :: m1) m2 (by rw [heq]; rfl) h2)
      (fun x hx => hnp x (List.mem_cons_of_mem c hx))]
    simp

/-- The flattened text of one canonical summary row
`P D S% W - L - T R%` (single spaces between the fields). -/
def summaryRowText (pd nm S W L T R : List Char) : List Char :=
  pd ++ ' ' :: (nm ++ ' ' :: (S ++ '%' :: ' ' :: (W ++ ' ' :: '-' :: ' ' ::
    (L ++ ' ' :: '-' :: ' ' :: (T ++ ' ' :: (R ++ ['%']))))))

/-- The full summary pattern anchored at the start of a canonical row
matches it completely and captures the expected groups. -/
theorem matchSummaryAt_complete (pd nm S W L T R : List Char)
    (hpd : pd ≠ []) (hpdd : ∀ x ∈ pd, x.isDigit = true)
    (hnm : ∃ c0 c1 nr, nm = c0 :: c1 :: nr ∧ isUpperDigit c0 = true)
    (hnp : ∀ x ∈ nm, ¬ x = '%')
    (hnl : ∃ cl, nm.getLast? = some cl ∧ isWs cl = false)
    (hS : NumTok S)
    (hW : W ≠ []) (hWd : ∀ x ∈ W, x.isDigit = true)
    (hL : L ≠ []) (hLd : ∀ x ∈ L, x.isDigit = true)
    (hT : T ≠ []) (hTd : ∀ x ∈ T, x.isDigit = true)
    (hR : NumTok R) :
    matchSummaryAt (summaryRowText pd nm S W L T R) =
      some (mkSummaryRecord pd nm ⟨S, W, L, T, R⟩, []) := by
  obtain ⟨c0, c1, nr, hnmeq, hc0⟩ := hnm
  obtain ⟨cl, hcl, hclw⟩ := hnl
  have hrt : rowTail (' ' :: (S ++ '%' :: ' ' :: (W ++ ' ' :: '-' :: ' ' ::
      (L ++ ' ' :: '-' :: ' ' :: (T ++ ' ' :: (R ++ ['%'])))))) =
      some (⟨S, W, L, T, R⟩, []) :=
    rowTail_complete S W L T R hS hW hWd hL hLd hT hTd hR
  unfold matchSummaryAt summaryRowText
  rw [digits1_spec pd ' '
    (nm ++ ' ' :: (S ++ '%' :: ' ' :: (W ++ ' ' :: '-' :: ' ' ::
      (L ++ ' ' :: '-' :: ' ' :: (T ++ ' ' :: (R ++ ['%']))))))
    hpd hpdd (by decide)]
  dsimp only
  rw [ws1_cons _ ⟨c0, c1 :: nr ++ ' ' :: (S ++ '%' :: ' ' :: (W ++ ' ' :: '-' :: ' ' ::
      (L ++ ' ' :: '-' :: ' ' :: (T ++ ' ' :: (R ++ ['%']))))),
    by rw [hnmeq]; simp, upperDigit_not_ws c0 hc0⟩]
  dsimp only
  rw [hnmeq]
  simp only [List.cons_append]
  have hcond : (isUpperDigit c0 && !(c1 = '%')) = true := by
    rw [hc0]
    have : ¬ c1 = '%' := hnp c1 (by rw [hnmeq]; simp)
    simp [this]
  rw [if_pos hcond]
  have hfail : ∀ m1 m2, nr = m1 ++ m2 → m2 ≠ [] →
      rowTail (m2 ++ ' ' :: (S ++ '%' :: ' ' :: (W ++ ' ' :: '-' :: ' ' ::
        (L ++ ' ' :: '-' :: ' ' :: (T ++ ' ' :: (R ++ ['%'])))))) = none := by
    intro m1 m2 heq h2
    apply rowTail_fail m2 _ h2
    · intro x hx
      exact hnp x (by rw [hnmeq, heq]; simp [hx])
    · -- the last character of the name lies in m2 and is not whitespace
      have hsplit : nm = (c0 :: c1 :: m1) ++ m2 := by rw [hnmeq, heq]; simp
      have hm2l : m2.getLast? = some cl := by
        rw [hsplit, List.getLast?_append] at hcl
        cases hq : m2.getLast? with
        | none => exact absurd (List.getLast?_eq_none_iff.mp hq) h2
        | some z =>
          rw [hq, Option.or_some] at hcl
          exact hcl
      exact ⟨cl, List.mem_of_getLast?_eq_some hm2l, hclw⟩
  rw [nameLoop_through _ ⟨S, W, L, T, R⟩ [] hrt (List.cons_ne_nil _ _) nr [c0, c1]
    hfail (fun x hx => hnp x (by rw [hnmeq]; simp [hx]))]
  dsimp only
  rw [show [c0, c1] ++ nr = c0 :: c1 :: nr from rfl]

theorem extractSummaryAux_nil (fuel : Nat) : extractSummaryAux fuel [] = [] := by
  cases fuel <;> rfl

/-- A text that is exactly one full match of the pattern yields exactly one
record. -/
theorem extract_single (text : List Char) (rec : SummaryRecord)
    (h : matchSummaryAt text = some (rec, [])) (hne : text ≠ []) :
    extract_overall_or_day text = [rec] := by
  obtain ⟨c, r, rfl⟩ := List.exists_cons_of_ne_nil hne
  show extractSummaryAux ((c :: r).length) (c :: r) = [rec]
  rw [List.length_cons]
  show extractSummaryAux (r.length + 1) (c :: r) = [rec]
  unfold extractSummaryAux
  rw [h]
  dsimp only
  rw [extractSummaryAux_nil]

theorem stripWs_id (l : List Char) (h : ∀ x ∈ l, isWs x = false) :
    stripWs l = l := by
  unfold stripWs
  have h1 : l.dropWhile isWs = l := by
    cases l with
    | nil => rfl
    | cons c r =>
      rw [List.dropWhile_cons,
        if_neg (by rw [h c (List.mem_cons_self c r)]; exact Bool.false_ne_true)]
  rw [h1]
  have h2 : l.reverse.dropWhile isWs = l.reverse := by
    cases hrev : l.reverse with
    | nil => rfl
    | cons c r =>
      have hc : c ∈ l := by
        rw [← List.mem_reverse, hrev]
        exact List.mem_cons_self c r
      rw [List.dropWhile_cons, if_neg (by rw [h c hc]; exact Bool.false_ne_true)]
  rw [h2, List.reverse_reverse]

theorem map_norm_digits (l : List Char) (h : ∀ x ∈ l, x.isDigit = true) :
    l.map (fun c => if c = ',' then '.' else c) = l := by
  induction l with
  | nil => rfl
  | cons c r ih =>
    have hc : ¬ c = ',' := by
      intro he
      have hd := h c (List.mem_cons_self c r)
      rw [he] at hd
      exact absurd hd (by decide)
    simp only [List.map_cons, if_neg hc]
    rw [ih (fun y hy => h y (List.mem_cons_of_mem c hy))]

theorem floatVal_digits_frac (a b : List Char) (had : ∀ x ∈ a, x.isDigit = true)
    (hbd : ∀ x ∈ b, x.isDigit = true) :
    floatVal (a ++ '.' :: b) =
      (digitsToNat a : ℚ) + (digitsToNat b : ℚ) / (10 : ℚ) ^ b.length := by
  unfold floatVal
  rw [takeWhile_append_all _ a '.' b had (by decide),
    dropWhile_append_all _ a '.' b had (by decide)]
  dsimp only
  rw [if_pos rfl, takeWhile_all_eq _ b hbd]

/-- `parse_percentage_str` on the shapes produced by the `\d+[.,]?\d*`
group: comma vs period is invisible, a trailing `%` is invisible, and the
value is the decimal value of the digits. -/
theorem pct_parse_invariant (a b : List Char) (ha : a ≠ [])
    (had : ∀ x ∈ a, x.isDigit = true) (hbd : ∀ x ∈ b, x.isDigit = true) :
    parse_percentage_str (a ++ ',' :: (b ++ ['%'])) =
      parse_percentage_str (a ++ '.' :: (b ++ ['%'])) ∧
    parse_percentage_str (a ++ '.' :: (b ++ ['%'])) =
      parse_percentage_str (a ++ '.' :: b) ∧
    parse_percentage_str (a ++ '.' :: b) =
      (digitsToNat a : ℚ) + (digitsToNat b : ℚ) / (10 : ℚ) ^ b.length := by
  have hpps : ∀ s : List Char, parse_percentage_str s =
      floatVal ((if (stripWs s).getLast? = some '%' then (stripWs s).dropLast
        else stripWs s).map (fun c => if c = ',' then '.' else c)) :=
    fun s => rfl
  have hnw1 : ∀ x ∈ a ++ ',' :: (b ++ ['%']), isWs x = false := by
    intro x hx
    simp only [List.mem_append, List.mem_cons, List.not_mem_nil, or_false] at hx
    rcases hx with hx | rfl | hx | rfl
    · exact digit_not_ws x (had x hx)
    · decide
    · exact digit_not_ws x (hbd x hx)
    · decide
  have hnw2 : ∀ x ∈ a ++ '.' :: (b ++ ['%']), isWs x = false := by
    intro x hx
    simp only [List.mem_append, List.mem_cons, List.not_mem_nil, or_false] at hx
    rcases hx with hx | rfl | hx | rfl
    · exact digit_not_ws x (had x hx)
    · decide
    · exact digit_not_ws x (hbd x hx)
    · decide
  have hnw3 : ∀ x ∈ a ++ '.' :: b, isWs x = false := by
    intro x hx
    simp only [List.mem_append, List.mem_cons] at hx
    rcases hx with hx | rfl | hx
    · exact digit_not_ws x (had x hx)
    · decide
    · exact digit_not_ws x (hbd x hx)
  have hassoc : ∀ sep : Char, a ++ sep :: (b ++ ['%']) = (a ++ sep :: b) ++ ['%'] := by
    intro sep
    simp
  have hlast1 : (a ++ ',' :: (b ++ ['%'])).getLast? = some '%' := by
    rw [hassoc]
    exact List.getLast?_concat _
  have hlast2 : (a ++ '.' :: (b ++ ['%'])).getLast? = some '%' := by
    rw [hassoc]
    exact List.getLast?_concat _
  have hdrop1 : (a ++ ',' :: (b ++ ['%'])).dropLast = a ++ ',' :: b := by
    rw [hassoc]
    exact List.dropLast_concat
  have hdrop2 : (a ++ '.' :: (b ++ ['%'])).dropLast = a ++ '.' :: b := by
    rw [hassoc]
    exact List.dropLast_concat
  have hlast3 : ¬ (a ++ '.' :: b).getLast? = some '%' := by
    intro hco
    have hmem := List.mem_of_getLast?_eq_some hco
    simp only [List.mem_append, List.mem_cons] at hmem
    rcases hmem with hx | hx | hx
    · exact absurd (had '%' hx) (by decide)
    · exact absurd hx (by decide)
    · exact absurd (hbd '%' hx) (by decide)
  have hmap_comma : (a ++ ',' :: b).map (fun c => if c = ',' then '.' else c) =
      a ++ '.' :: b := by
    rw [List.map_append, List.map_cons, map_norm_digits a had, map_norm_digits b hbd]
    simp
  have hmap_dot : (a ++ '.' :: b).map (fun c => if c = ',' then '.' else c) =
      a ++ '.' :: b := by
    rw [List.map_append, List.map_cons, map_norm_digits a had, map_norm_digits b hbd]
    simp
  have e1 : parse_percentage_str (a ++ ',' :: (b ++ ['%'])) = floatVal (a ++ '.' :: b) := by
    rw [hpps, stripWs_id _ hnw1, if_pos hlast1, hdrop1, hmap_comma]
  have e2 : parse_percentage_str (a ++ '.' :: (b ++ ['%'])) = floatVal (a ++ '.' :: b) := by
    rw [hpps, stripWs_id _ hnw2, if_pos hlast2, hdrop2, hmap_dot]
  have e3 : parse_percentage_str (a ++ '.' :: b) = floatVal (a ++ '.' :: b) := by
    rw [hpps, stripWs_id _ hnw3, if_neg hlast3, hmap_dot]
  exact ⟨e1.trans e2.symm, e2.trans e3.symm, e3.trans (floatVal_digits_frac a b had hbd)⟩


/-! ### Canonical-row extraction (claim C3) -/

/-- A list with a non-whitespace head and a non-whitespace last character is
unchanged by `strip()`. -/
theorem stripWs_ends (c0 : Char) (r : List Char) (h0 : isWs c0 = false)
    (cl : Char) (hcl : (c0 :: r).getLast? = some cl) (hclw : isWs cl = false) :
    stripWs (c0 :: r) = c0 :: r := by
  unfold stripWs
  rw [List.dropWhile_cons, if_neg (by rw [h0]; exact Bool.false_ne_true)]
  have hrev : (c0 :: r).reverse.head? = some cl := by
    rw [List.head?_reverse]
    exact hcl
  cases hq : (c0 :: r).reverse with
  | nil => rw [hq] at hrev; exact absurd hrev (by simp)
  | cons d t =>
    rw [hq] at hrev
    simp only [List.head?_cons, Option.some.injEq] at hrev
    subst hrev
    rw [List.dropWhile_cons, if_neg (by rw [hclw]; exact Bool.false_ne_true), ← hq,
      List.reverse_reverse]

/-- Claim C3 (amended): a page text that is exactly one canonical summary row
`P D S% W - L - T R%` — digit fields nonempty, deck name of at least two
characters starting with `[A-Z0-9]`, containing no `%` and not ending in
whitespace — yields exactly one record, with `players = P`, `deck = D`,
`share = parse(S)`, `wins = W`, `losses = L`, `ties = T`,
`win_pct = parse(R)`; and percentage parsing gives the same rational number
whether the decimal separator is a comma or a period and whether or not a
trailing `%` is present.  (The original claim is false for one-character
deck names, which match the row shape but yield no record: the name group
`[A-Z0-9][^%]+?` needs at least two characters.) -/
theorem summary_row_extraction (pd nm S W L T R : List Char)
    (hpd : pd ≠ []) (hpdd : ∀ x ∈ pd, x.isDigit = true)
    (hnm : ∃ c0 c1 nr, nm = c0 :: c1 :: nr ∧ isUpperDigit c0 = true)
    (hnp : ∀ x ∈ nm, ¬ x = '%')
    (hnl : ∃ cl, nm.getLast? = some cl ∧ isWs cl = false)
    (hS : NumTok S)
    (hW : W ≠ []) (hWd : ∀ x ∈ W, x.isDigit = true)
    (hL : L ≠ []) (hLd : ∀ x ∈ L, x.isDigit = true)
    (hT : T ≠ []) (hTd : ∀ x ∈ T, x.isDigit = true)
    (hR : NumTok R)
    (a b : List Char) (ha : a ≠ [])
    (had : ∀ x ∈ a, x.isDigit = true) (hbd : ∀ x ∈ b, x.isDigit = true) :
    extract_overall_or_day (summaryRowText pd nm S W L T R) =
      [{ deck := String.mk nm
         players := digitsToNat pd
         share := parse_percentage_str S
         wins := digitsToNat W
         losses := digitsToNat L
         ties := digitsToNat T
         win_pct := parse_percentage_str R }] ∧
    parse_percentage_str (a ++ ',' :: (b ++ ['%'])) =
      parse_percentage_str (a ++ '.' :: (b ++ ['%'])) ∧
    parse_percentage_str (a ++ '.' :: (b ++ ['%'])) =
      parse_percentage_str (a ++ '.' :: b) ∧
    parse_percentage_str (a ++ '.' :: b) =
      (digitsToNat a : ℚ) + (digitsToNat b : ℚ) / (10 : ℚ) ^ b.length := by
  obtain ⟨e1, e2, e3⟩ := pct_parse_invariant a b ha had hbd
  refine ⟨?_, e1, e2, e3⟩
  have hm := matchSummaryAt_complete pd nm S W L T R hpd hpdd hnm hnp hnl hS
    hW hWd hL hLd hT hTd hR
  have hne : summaryRowText pd nm S W L T R ≠ [] := by
    obtain ⟨p0, pr, hp⟩ := List.exists_cons_of_ne_nil hpd
    unfold summaryRowText
    rw [hp]
    simp
  rw [extract_single _ _ hm hne]
  have hstrip : stripWs nm = nm := by
    obtain ⟨c0, c1, nr, hnmeq, hc0⟩ := hnm
    obtain ⟨cl, hcl, hclw⟩ := hnl
    rw [hnmeq] at hcl ⊢
    exact stripWs_ends c0 (c1 :: nr) (upperDigit_not_ws c0 hc0) cl hcl hclw
  unfold mkSummaryRecord
  dsimp only
  rw [hstrip]

/-- Claim C3 (counterexample): a well-formed summary row whose deck name is
a single character is not matched at all — the extractor returns no record
for it, contradicting "yields exactly one record for that row". -/
theorem summary_row_extraction_cex :
    extract_overall_or_day ("307 A 14.5% 1 - 2 - 3 45.0%".data) = [] := by
  with_unfolding_all rfl

/-- Witness: the amended C3 theorem instantiated at the concrete row
`307 AB 14.5% 1 - 2 - 3 45.0%` and the percentage strings `14,52%`,
`14.52%`, `14.52`. -/
theorem summary_row_extraction_witness :
    extract_overall_or_day (summaryRowText "307".data "AB".data "14.5".data
        "1".data "2".data "3".data "45.0".data) =
      [{ deck := String.mk "AB".data
         players := digitsToNat "307".data
         share := parse_percentage_str "14.5".data
         wins := digitsToNat "1".data
         losses := digitsToNat "2".data
         ties := digitsToNat "3".data
         win_pct := parse_percentage_str "45.0".data }] ∧
    parse_percentage_str ("14".data ++ ',' :: ("52".data ++ ['%'])) =
      parse_percentage_str ("14".data ++ '.' :: ("52".data ++ ['%'])) ∧
    parse_percentage_str ("14".data ++ '.' :: ("52".data ++ ['%'])) =
      parse_percentage_str ("14".data ++ '.' :: "52".data) ∧
    parse_percentage_str ("14".data ++ '.' :: "52".data) =
      (digitsToNat "14".data : ℚ) +
        (digitsToNat "52".data : ℚ) / (10 : ℚ) ^ ("52".data).length :=
  summary_row_extraction "307".data "AB".data "14.5".data "1".data "2".data
    "3".data "45.0".data
    (by decide) (by decide)
    ⟨'A', 'B', [], rfl, by decide⟩
    (by decide)
    ⟨'B', rfl, by decide⟩
    (Or.inr ⟨"14".data, '.', "5".data, rfl, by decide, by decide, Or.inl rfl,
      by decide⟩)
    (by decide) (by decide) (by decide) (by decide) (by decide) (by decide)
    (Or.inr ⟨"45".data, '.', "0".data, rfl, by decide, by decide, Or.inl rfl,
      by decide⟩)
    "14".data "52".data (by decide) (by decide) (by decide)

/-! ### Name anchoring (claim C10) -/

/-- The name captured by the lazy loop extends its starting accumulator. -/
theorem nameLoop_acc_prefix (r : List Char) : ∀ acc nm t rem,
    nameLoop r acc = some (nm, t, rem) → ∃ ext, nm = acc ++ ext := by
  induction r with
  | nil =>
    intro acc nm t rem h
    exact absurd h (by simp [nameLoop])
  | cons c r' ih =>
    intro acc nm t rem h
    unfold nameLoop at h
    cases hrt : rowTail (c :: r') with
    | some p =>
      obtain ⟨t0, rem0⟩ := p
      rw [hrt] at h
      dsimp only at h
      simp only [Option.some.injEq, Prod.mk.injEq] at h
      exact ⟨[], by rw [← h.1]; simp⟩
    | none =>
      rw [hrt] at h
      dsimp only at h
      by_cases hc : c = '%'
      · rw [if_pos hc] at h
        exact absurd h (by simp)
      · rw [if_neg hc] at h
        obtain ⟨ext, hext⟩ := ih (acc ++ [c]) nm t rem h
        exact ⟨c :: ext, by rw [hext]; simp⟩

/-- The name captured by the conversion-pattern lazy loop extends its
starting accumulator. -/
theorem nameLoopConv_acc_prefix (r : List Char) : ∀ acc nm t rem,
    nameLoopConv r acc = some (nm, t, rem) → ∃ ext, nm = acc ++ ext := by
  induction r with
  | nil =>
    intro acc nm t rem h
    exact absurd h (by simp [nameLoopConv])
  | cons c r' ih =>
    intro acc nm t rem h
    unfold nameLoopConv at h
    cases hrt : convTail (c :: r') with
    | some p =>
      obtain ⟨t0, rem0⟩ := p
      rw [hrt] at h
      dsimp only at h
      simp only [Option.some.injEq, Prod.mk.injEq] at h
      exact ⟨[], by rw [← h.1]; simp⟩
    | none =>
      rw [hrt] at h
      dsimp only at h
      by_cases hc : c = '%'
      · rw [if_pos hc] at h
        exact absurd h (by simp)
      · rw [if_neg hc] at h
        obtain ⟨ext, hext⟩ := ih (acc ++ [c]) nm t rem h
        exact ⟨c :: ext, by rw [hext]; simp⟩

/-- `strip()` keeps a non-whitespace head character in first position. -/
theorem stripWs_head (c0 : Char) (l : List Char) (h0 : isWs c0 = false) :
    ∃ w, stripWs (c0 :: l) = c0 :: w := by
  unfold stripWs
  rw [List.dropWhile_cons, if_neg (by rw [h0]; exact Bool.false_ne_true)]
  obtain ⟨w, hw⟩ := dropWhile_concat_stop isWs l.reverse c0 h0
  rw [List.reverse_cons, hw]
  exact ⟨w.reverse, by simp⟩

/-- Every record produced by the anchored summary pattern has a deck name
that starts with an `[A-Z0-9]` character. -/
theorem matchSummaryAt_anchor (cs : List Char) (rec : SummaryRecord)
    (rem : List Char) (h : matchSummaryAt cs = some (rec, rem)) :
    ∃ c rest, rec.deck.data = c :: rest ∧ isUpperDigit c = true := by
  unfold matchSummaryAt at h
  cases hd : digits1 cs with
  | none => rw [hd] at h; exact absurd h (by simp)
  | some p =>
    obtain ⟨pd, r0⟩ := p
    rw [hd] at h
    dsimp only at h
    cases hw : ws1 r0 with
    | none => rw [hw] at h; exact absurd h (by simp)
    | some r1 =>
      rw [hw] at h
      dsimp only at h
      cases r1 with
      | nil => exact absurd h (by simp)
      | cons c0 r1p =>
        cases r1p with
        | nil => exact absurd h (by simp)
        | cons c1 r2 =>
          dsimp only at h
          by_cases hcond : (isUpperDigit c0 && !(c1 = '%')) = true
          · rw [if_pos hcond] at h
            cases hnl : nameLoop r2 [c0, c1] with
            | none => rw [hnl] at h; exact absurd h (by simp)
            | some q =>
              obtain ⟨nm, t, rem0⟩ := q
              rw [hnl] at h
              dsimp only at h
              simp only [Option.some.injEq, Prod.mk.injEq] at h
              obtain ⟨hrec, hrem⟩ := h
              obtain ⟨ext, hext⟩ := nameLoop_acc_prefix r2 [c0, c1] nm t rem0 hnl
              have hc0 : isUpperDigit c0 = true := by
                simp at hcond
                exact hcond.1
              obtain ⟨w, hwq⟩ :=
                stripWs_head c0 (c1 :: ext) (upperDigit_not_ws c0 hc0)
              refine ⟨c0, w, ?_, hc0⟩
              rw [← hrec]
              show stripWs nm = c0 :: w
              rw [hext]
              exact hwq
          · rw [if_neg hcond] at h
            exact absurd h (by simp)

/-- Every record produced by the anchored conversion pattern has a deck
name that starts with an `[A-Z0-9]` character. -/
theorem matchConvAt_anchor (cs : List Char) (rec : ConversionRecord)
    (rem : List Char) (h : matchConvAt cs = some (rec, rem)) :
    ∃ c rest, rec.deck.data = c :: rest ∧ isUpperDigit c = true := by
  cases cs with
  | nil => exact absurd h (by simp [matchConvAt])
  | cons c0 cs' =>
    cases cs' with
    | nil => exact absurd h (by simp [matchConvAt])
    | cons c1 r2 =>
      unfold matchConvAt at h
      dsimp only at h
      by_cases hcond : (isUpperDigit c0 && !(c1 = '%')) = true
      · rw [if_pos hcond] at h
        cases hnl : nameLoopConv r2 [c0, c1] with
        | none => rw [hnl] at h; exact absurd h (by simp)
        | some q =>
          obtain ⟨nm, t, rem0⟩ := q
          rw [hnl] at h
          dsimp only at h
          simp only [Option.some.injEq, Prod.mk.injEq] at h
          obtain ⟨hrec, hrem⟩ := h
          obtain ⟨ext, hext⟩ := nameLoopConv_acc_prefix r2 [c0, c1] nm t rem0 hnl
          have hc0 : isUpperDigit c0 = true := by
            simp at hcond
            exact hcond.1
          obtain ⟨w, hwq⟩ :=
            stripWs_head c0 (c1 :: ext) (upperDigit_not_ws c0 hc0)
          refine ⟨c0, w, ?_, hc0⟩
          rw [← hrec]
          show stripWs nm = c0 :: w
          rw [hext]
          exact hwq
      · rw [if_neg hcond] at h
        exact absurd h (by simp)

/-- The anchoring property lifted over the summary finditer scan. -/
theorem extractSummaryAux_anchor (fuel : Nat) : ∀ text rec,
    rec ∈ extractSummaryAux fuel text →
    ∃ c rest, rec.deck.data = c :: rest ∧ isUpperDigit c = true := by
  induction fuel with
  | zero =>
    intro text rec h
    simp [extractSummaryAux] at h
  | succ n ih =>
    intro text rec h
    cases text with
    | nil => simp [extractSummaryAux] at h
    | cons c r =>
      unfold extractSummaryAux at h
      cases hm : matchSummaryAt (c :: r) with
      | none =>
        rw [hm] at h
        exact ih r rec h
      | some p =>
        obtain ⟨rec0, rem⟩ := p
        rw [hm] at h
        dsimp only at h
        rcases List.mem_cons.mp h with rfl | h2
        · exact matchSummaryAt_anchor (c :: r) rec rem hm
        · exact ih rem rec h2

/-- The anchoring property lifted over the conversion finditer scan. -/
theorem extractConvAux_anchor (fuel : Nat) : ∀ text rec,
    rec ∈ extractConvAux fuel text →
    ∃ c rest, rec.deck.data = c :: rest ∧ isUpperDigit c = true := by
  induction fuel with
  | zero =>
    intro text rec h
    simp [extractConvAux] at h
  | succ n ih =>
    intro text rec h
    cases text with
    | nil => simp [extractConvAux] at h
    | cons c r =>
      unfold extractConvAux at h
      cases hm : matchConvAt (c :: r) with
      | none =>
        rw [hm] at h
        exact ih r rec h
      | some p =>
        obtain ⟨rec0, rem⟩ := p
        rw [hm] at h
        dsimp only at h
        rcases List.mem_cons.mp h with rfl | h2
        · exact matchConvAt_anchor (c :: r) rec rem hm
        · exact ih rem rec h2

/-- Claim C10 (amended): every record either extractor produces has a deck
name whose first character is an ASCII uppercase letter or decimal digit
(the `[A-Z0-9]` anchor of the patterns).  The original claim's further
assertion — that a row whose name field starts with any other character is
silently skipped and yields no record — is false: the pattern can re-anchor
at a later `[A-Z0-9]` character inside the row and emit a record with a
truncated deck name (see the counterexample). -/
theorem name_anchor_upper_digit (text : List Char) :
    (∀ rec ∈ extract_overall_or_day text,
      ∃ c rest, rec.deck.data = c :: rest ∧ isUpperDigit c = true) ∧
    (∀ rec ∈ extract_conversion text,
      ∃ c rest, rec.deck.data = c :: rest ∧ isUpperDigit c = true) :=
  ⟨fun rec h => extractSummaryAux_anchor text.length text rec h,
   fun rec h => extractConvAux_anchor text.length text rec h⟩

/-- Claim C10 (counterexample): a row whose deck-name field starts with a
lowercase letter is not skipped: the extractor re-anchors inside the row
and produces one record with a truncated deck name and a different player
count. -/
theorem name_anchor_upper_digit_cex :
    (extract_overall_or_day "10 abc 9 Deck 14.5% 1 - 2 - 3 45.0%".data).map
      (fun r => (r.deck, r.players)) = [("Deck", 9)] := by
  with_unfolding_all rfl

/-- Witness: the anchor theorem applied to the record the extractor
produces from `10 abc 9 Deck 14.5% 1 - 2 - 3 45.0%`. -/
theorem name_anchor_upper_digit_witness :
    ∃ c rest,
      ({ deck := "Deck", players := 9,
         share := parse_percentage_str "14.5".data,
         wins := 1, losses := 2, ties := 3,
         win_pct := parse_percentage_str "45.0".data } :
        SummaryRecord).deck.data = c :: rest ∧ isUpperDigit c = true :=
  (name_anchor_upper_digit "10 abc 9 Deck 14.5% 1 - 2 - 3 45.0%".data).1
    { deck := "Deck", players := 9,
      share := parse_percentage_str "14.5".data,
      wins := 1, losses := 2, ties := 3,
      win_pct := parse_percentage_str "45.0".data }
    (of_decide_eq_true (by with_unfolding_all rfl))

end MetaAgg
